import Mathlib

/-!
Verification development for the relay intelligence engine of the
`relayopti` repository (TypeScript).  The TypeScript sources are shallowly
embedded: strings are lists of characters, maps are insertion-ordered
association lists (mirroring JS `Map`/`Set` iteration order), network
effects are abstracted as explicit outcome-valued oracles passed in as
arguments, and the WHATWG `URL` platform parser is modelled by a
structured parser covering the `scheme://host[:port][/path]` shapes that
relay URLs take (no query/fragment distinction, ASCII case folding,
decimal port normalization, default-port and path conventions of the
platform).
-/

/-- Strings of the embedded program: JS strings as lists of characters. -/
abbrev Str := List Char

/-- ASCII lower-casing of one character, as `String.prototype.toLowerCase`
acts on the ASCII range relay URLs use. -/
def lowerChar (c : Char) : Char :=
  if 'A' ≤ c ∧ c ≤ 'Z' then Char.ofNat (c.toNat + 32) else c

/-- ASCII lower-casing of a string. -/
def lowerStr (s : Str) : Str := s.map lowerChar

/-- The `.replace(/\/$/, '')` idiom of `relay-utils.ts`: removes one
trailing slash if present. -/
def dropTrailingSlash (s : Str) : Str :=
  if s.getLast? = some '/' then s.dropLast else s

/-- Splits a string at the first occurrence of the scheme separator
`://`, returning the part before and the part after; `none` when the
separator does not occur (the platform `new URL` throws on such input
for the URL shapes in scope). -/
def splitScheme : Str → Option (Str × Str)
  | [] => none
  | c :: rest =>
    if c = ':' ∧ rest.take 2 = ['/', '/'] then some ([], rest.drop 2)
    else (splitScheme rest).map fun p => (c :: p.1, p.2)

/-- Decimal digit character for a value below ten. -/
def digitChar (d : Nat) : Char :=
  match d with
  | 0 => '0' | 1 => '1' | 2 => '2' | 3 => '3' | 4 => '4'
  | 5 => '5' | 6 => '6' | 7 => '7' | 8 => '8' | _ => '9'

/-- Numeric value of a decimal digit character. -/
def digitVal (c : Char) : Nat := c.toNat - 48

/-- Is this character an ASCII decimal digit? -/
def isDigitChar (c : Char) : Bool := '0' ≤ c ∧ c ≤ '9'

/-- Value of a big-endian string of decimal digits. -/
def digitsVal (ds : Str) : Nat := ds.foldl (fun a c => a * 10 + digitVal c) 0

/-- Little-endian decimal digits of a natural number, fuelled so the
recursion is structural. -/
def natDigitsAux (fuel : Nat) (n : Nat) : List Nat :=
  match fuel with
  | 0 => []
  | fuel + 1 => if n = 0 then [] else n % 10 :: natDigitsAux fuel (n / 10)

/-- Canonical big-endian decimal digit string of a natural number, as the
platform URL serializer prints ports. -/
def natDigits (n : Nat) : Str :=
  if n = 0 then ['0'] else (natDigitsAux n n).reverse.map digitChar

/-- Structured view of a parsed URL, the relevant fields of the platform
`URL` object: scheme (without the colon), host, optional port, path. -/
structure ParsedUrl where
  scheme : Str
  host : Str
  port : Option Nat
  path : Str
deriving DecidableEq, Repr

/-- Parsing of the `[:port]` slice of the authority: absent or bare
colon means no port, otherwise the digits after the colon must be a
decimal number of at most 65535 (else the platform constructor throws,
i.e. `none`). -/
def parsePortPart : Str → Option (Option Nat)
  | [] => some none
  | _ :: ds =>
    if ds = [] then some none
    else if ds.all isDigitChar then
      if digitsVal ds ≤ 65535 then some (some (digitsVal ds)) else none
    else none

/-- Model of the platform `new URL(s)` constructor on the
`scheme://host[:port][path]` shapes relay URLs take.  Scheme and host are
ASCII lower-cased as the platform does; an absent or empty port is
`none`; a port must be decimal digits valued at most 65535 (else the
constructor throws, i.e. `none`); an absent path is the root path `/`
(the platform `pathname` of `wss://h` is `/`). -/
def parseURL (s : Str) : Option ParsedUrl :=
  match splitScheme s with
  | none => none
  | some (scheme, rest) =>
    if scheme = [] then none
    else
      let auth := rest.takeWhile (fun c => c ≠ '/')
      let path := rest.dropWhile (fun c => c ≠ '/')
      let host := auth.takeWhile (fun c => c ≠ ':')
      let portPart := auth.dropWhile (fun c => c ≠ ':')
      if host = [] then none
      else
        match parsePortPart portPart with
        | none => none
        | some port =>
          some { scheme := lowerStr scheme, host := lowerStr host, port := port,
                 path := if path = [] then ['/'] else path }

/-- Serialization of a port field, as the platform prints it. -/
def portStr : Option Nat → Str
  | none => []
  | some n => ':' :: natDigits n

/-- Model of `URL.prototype.toString` on the structured view. -/
def serializeURL (p : ParsedUrl) : Str :=
  p.scheme ++ ':' :: '/' :: '/' :: (p.host ++ portStr p.port ++ p.path)

/-- The mutation steps `normalizeRelayUrl` applies to a parsed URL
object: lower-case the hostname, remove the scheme-default port (443 for
wss, 80 for ws), replace a bare `/` pathname by the empty path. -/
def normRecord (parsed : ParsedUrl) : ParsedUrl :=
  let p1 : ParsedUrl := { parsed with host := lowerStr parsed.host }
  let p2 : ParsedUrl :=
    if (p1.scheme = "wss".toList ∧ p1.port = some 443) ∨
       (p1.scheme = "ws".toList ∧ p1.port = some 80) then
      { p1 with port := none }
    else p1
  if p2.path = ['/'] then { p2 with path := [] } else p2

/-- Embedding of `normalizeRelayUrl` from `src/lib/relay-utils.ts`:
parse the URL, apply the `normRecord` mutations, serialize, and strip one
trailing slash; on unparsable input fall back to lower-casing and
stripping one trailing slash. -/
def normalizeRelayUrl (u : Str) : Str :=
  match parseURL u with
  | some parsed => dropTrailingSlash (serializeURL (normRecord parsed))
  | none => dropTrailingSlash (lowerStr u)

/-- Embedding of `isSameRelay` from `src/lib/relay-utils.ts`. -/
def isSameRelay (url1 url2 : Str) : Bool :=
  normalizeRelayUrl url1 = normalizeRelayUrl url2

/-- Relay status variants from `src/types/relay-optimizer.ts`. -/
inductive RelayStatusType where
  | good | ok | bad | unknown | testing
deriving DecidableEq, Repr

/-- Embedding of `categorizeLatency` from `src/lib/relay-utils.ts`. -/
def categorizeLatency (latencyMs : Option Nat) : RelayStatusType :=
  match latencyMs with
  | none => .bad
  | some l => if l < 100 then .good else if l < 300 then .ok else .bad

/-- A Nostr event as the engine consumes it: the fields used by the
hooks (`id`, `pubkey`, `kind`, `content`, `tags`, `created_at`). -/
structure NEvent where
  id : Str
  pubkey : Str
  kind : Nat
  content : Str
  tags : List (List Str)
  created_at : Nat
deriving DecidableEq, Repr

/-- First loop of `buildNIP65Tags` (`usePublishRelayLists.ts`): walk the
inbox list threading the `seen` set of normalized URLs; an identity also
present in the outbox set gets a bare `['r', url]` tag, otherwise
`['r', url, 'read']`.  Returns the produced tags and the final `seen`. -/
def nip65InboxTags (outboxSet : List Str) : List Str → List Str → List (List Str) × List Str
  | [], seen => ([], seen)
  | url :: rest, seen =>
    let normalized := normalizeRelayUrl url
    if normalized ∈ seen then nip65InboxTags outboxSet rest seen
    else
      let result := nip65InboxTags outboxSet rest (normalized :: seen)
      ((if normalized ∈ outboxSet then ["r".toList, url]
        else ["r".toList, url, "read".toList]) :: result.1, result.2)

/-- Second loop of `buildNIP65Tags`: walk the outbox list with the `seen`
set carried over; unseen identities get `['r', url, 'write']`. -/
def nip65OutboxTags : List Str → List Str → List (List Str)
  | [], _ => []
  | url :: rest, seen =>
    let normalized := normalizeRelayUrl url
    if normalized ∈ seen then nip65OutboxTags rest seen
    else ["r".toList, url, "write".toList] :: nip65OutboxTags rest (normalized :: seen)

/-- Embedding of `buildNIP65Tags` from `src/hooks/usePublishRelayLists.ts`. -/
def buildNIP65Tags (inbox outbox : List Str) : List (List Str) :=
  let outboxSet := outbox.map normalizeRelayUrl
  let loop1 := nip65InboxTags outboxSet inbox []
  loop1.1 ++ nip65OutboxTags outbox loop1.2

/-- A relay with read/write permissions (`NIP65Relay` in
`src/types/relay-optimizer.ts`). -/
structure NIP65Relay where
  url : Str
  read : Bool
  write : Bool
deriving DecidableEq, Repr

/-- The marker of an `r` tag as JS sees it: a missing third element and
an empty-string third element are both falsy, hence `none`. -/
def tagMarker (t : List Str) : Option Str :=
  match t.get? 2 with
  | none => none
  | some m => if m = [] then none else some m

/-- Embedding of the kind-10002 parsing in `useUserRelays.ts`: keep the
`r` tags and read url plus marker, where no marker means read and write,
`'read'` means read only, `'write'` means write only. -/
def parseNIP65Tags (tags : List (List Str)) : List NIP65Relay :=
  (tags.filter (fun t => t.head? = some "r".toList)).map fun t =>
    { url := normalizeRelayUrl ((t.get? 1).getD []),
      read := tagMarker t = none ∨ tagMarker t = some "read".toList,
      write := tagMarker t = none ∨ tagMarker t = some "write".toList }

/-- Embedding of `getInboxRelays` from `useUserRelays.ts`. -/
def getInboxRelays (nip65 : List NIP65Relay) : List Str :=
  (nip65.filter (fun r => r.read)).map (fun r => r.url)

/-- Embedding of `getOutboxRelays` from `useUserRelays.ts`. -/
def getOutboxRelays (nip65 : List NIP65Relay) : List Str :=
  (nip65.filter (fun r => r.write)).map (fun r => r.url)

/-- NIP-11 relay information document (`NIP11Info` in
`src/types/relay-optimizer.ts`); every field is optional.  Only the
fields the claims touch are carried, the rest of the document does not
influence any modelled behavior. -/
structure NIP11Info where
  name : Option Str := none
  description : Option Str := none
  supported_nips : List Nat := []
deriving DecidableEq, Repr

/-- Extended relay status with NIP-11 info (`RelayStatusWithInfo`). -/
structure RelayStatusWithInfo where
  url : Str
  latency : Option Nat
  status : RelayStatusType
  lastTested : Nat
  nip11 : Option NIP11Info := none
deriving DecidableEq, Repr

/-- Outcome of the bounded NIP-11 metadata fetch inside `testRelay`:
either the fetch throws (timeout, network failure), or an HTTP response
arrives with its `ok` flag and the result of parsing the JSON body
(`none` when the body fails to parse). -/
inductive FetchOutcome where
  | thrown
  | response (ok : Bool) (body : Option NIP11Info)
deriving DecidableEq, Repr

/-- Embedding of the result computation of `testRelay` in
`src/hooks/useRelayPing.ts`: the status object the promise resolves to,
as a function of the fetch outcome and the measured wall-clock latency.
A non-ok response or a thrown fetch yields status `bad` with null
latency; an ok response buckets the latency via `categorizeLatency` and
attaches the NIP-11 body when it parsed. -/
def testRelayResult (url : Str) (fetch : FetchOutcome) (latency : Nat) (now : Nat) :
    RelayStatusWithInfo :=
  match fetch with
  | .thrown => { url := url, latency := none, status := .bad, lastTested := now }
  | .response ok body =>
    if ok then
      { url := url, latency := some latency, status := categorizeLatency (some latency),
        lastTested := now, nip11 := body }
    else
      { url := url, latency := none, status := .bad, lastTested := now }

/-- Insertion-ordered map update, as JS `Map.prototype.set`: an existing
key is overwritten in place, a new key is appended. -/
def mapSet (m : List (Str × RelayStatusWithInfo)) (k : Str) (v : RelayStatusWithInfo) :
    List (Str × RelayStatusWithInfo) :=
  if m.any (fun e => e.1 = k) then
    m.map (fun e => if e.1 = k then (k, v) else e)
  else m ++ [(k, v)]

/-- Lookup in the statuses map, as JS `Map.prototype.get`. -/
def mapGet (m : List (Str × RelayStatusWithInfo)) (k : Str) : Option RelayStatusWithInfo :=
  (m.find? (fun e => e.1 = k)).map (fun e => e.2)

/-- Embedding of the statuses-map effect of one `testRelay(url)` call in
`src/hooks/useRelayPing.ts`: the entry is first set to a `testing`
placeholder and then to the final result, both times keyed by the raw
`url` argument. -/
def testRelayStatuses (prev : List (Str × RelayStatusWithInfo)) (url : Str)
    (fetch : FetchOutcome) (latency : Nat) (now : Nat) :
    List (Str × RelayStatusWithInfo) :=
  let testingEntry : RelayStatusWithInfo :=
    { url := url, latency := none, status := .testing, lastTested := now }
  mapSet (mapSet prev url testingEntry) url (testRelayResult url fetch latency now)

/-- A relay review (`RelayReview` in `src/types/relay-optimizer.ts`).
Ratings live in ℚ: the JS numbers involved are parsed decimals, a
division by 5 and clamping, all exact in the rationals. -/
structure RelayReview where
  id : Str
  pubkey : Str
  relayUrl : Str
  content : Str
  rating : ℚ
  createdAt : Nat
deriving DecidableEq, Repr

/-- Model of JS `parseFloat` on the decimal literals relay ratings use:
optional leading spaces, optional sign, then a longest prefix
`digits[.digits]` or `.digits`; `none` when no digits occur (NaN). -/
def parseJsFloat (s : Str) : Option ℚ :=
  let s1 := s.dropWhile (fun c => c = ' ')
  let sign : ℚ := if s1.head? = some '-' then -1 else 1
  let s2 := if s1.head? = some '-' ∨ s1.head? = some '+' then s1.tail else s1
  let intPart := s2.takeWhile isDigitChar
  let rest := s2.dropWhile isDigitChar
  let fracPart := if rest.head? = some '.' then rest.tail.takeWhile isDigitChar else []
  if intPart = [] ∧ fracPart = [] then none
  else some (sign * ((digitsVal intPart : ℚ) +
    (digitsVal fracPart : ℚ) / (10 : ℚ) ^ fracPart.length))

/-- The first `r` tag of an event, as
`event.tags.find(([name]) => name === 'r')`. -/
def firstTagNamed (name : Str) (e : NEvent) : Option (List Str) :=
  e.tags.find? (fun t => t.head? = some name)

/-- The url slot of a tag under JS truthiness: a missing or empty second
element is `none`. -/
def tagUrl (t : List Str) : Option Str :=
  match t.get? 1 with
  | none => none
  | some u => if u = [] then none else some u

/-- Embedding of `parseReviewEvent` from `src/hooks/useRelayReviews.ts`:
null when the first `r` tag is missing or has no url; the rating defaults
to 0.5, a numeric rating above 1 is read as a 1-5 scale and divided by 5,
and a numeric rating is clamped into [0, 1]. -/
def parseReviewEvent (e : NEvent) : Option RelayReview :=
  match firstTagNamed "r".toList e with
  | none => none
  | some rTag =>
    match tagUrl rTag with
    | none => none
    | some url =>
      let ratingTag := firstTagNamed "rating".toList e
      let rating : ℚ :=
        match ratingTag with
        | none => 1/2
        | some rt =>
          match parseJsFloat ((rt.get? 1).getD []) with
          | none => 1/2
          | some q =>
            max 0 (min 1 (if q > 1 then q / 5 else q))
      some { id := e.id, pubkey := e.pubkey, relayUrl := normalizeRelayUrl url,
             content := e.content, rating := rating, createdAt := e.created_at }

/-- The relay list arguments of the publish mutation
(`RelayListsToPublish` in `src/hooks/usePublishRelayLists.ts`). -/
structure RelayListsToPublish where
  inboxRelays : List Str
  outboxRelays : List Str
  dmRelays : List Str
  searchRelays : List Str
  blockedRelays : List Str
  indexerRelays : List Str
  proxyRelays : List Str
  broadcastRelays : List Str
  trustedRelays : List Str
  profileEvent : Option NEvent := none
  contactListEvent : Option NEvent := none
deriving DecidableEq, Repr

/-- Result record of the publish mutation (`PublishResult`). -/
structure PublishResult where
  nip65 : Bool
  dm : Bool
  search : Bool
  blocked : Bool
  indexer : Bool
  proxy : Bool
  broadcast : Bool
  trusted : Bool
  profile : Bool
  contactList : Bool
  errors : List Str
deriving DecidableEq, Repr

/-- The unsigned event payload handed to `user.signer.signEvent`; signing
is an external capability modelled as the identity on this payload. -/
structure UnsignedEvent where
  kind : Nat
  content : Str
  tags : List (List Str)
  created_at : Nat
deriving DecidableEq, Repr

/-- Does `sub` occur as a contiguous prefix of `s`? -/
def startsWithSeq : Str → Str → Bool
  | [], _ => true
  | _ :: _, [] => false
  | p :: ps, c :: cs => p = c && startsWithSeq ps cs

/-- Does `sub` occur contiguously anywhere in `s`
(JS `String.prototype.includes`)? -/
def containsSeq (sub : Str) (s : Str) : Bool :=
  startsWithSeq sub s ||
    match s with
    | [] => false
    | _ :: cs => containsSeq sub cs

/-- Embedding of `formatRelayError` from `usePublishRelayLists.ts`: the
`Promise.any` all-relays-rejected conditions are replaced by one
human-readable sentence, everything else passes through. -/
def formatRelayError (msg : Str) : Str :=
  if containsSeq "no promise in promise.any was resolved".toList msg ||
     containsSeq "All promises were rejected".toList msg then
    "All relays failed to accept the event. Please check your relay configuration.".toList
  else msg

/-- The `addClientTag` helper of the publish mutation: appends a
`['client', hostname]` tag exactly when the invoking context is a secure
(https) origin. -/
def addClientTag (secure : Bool) (hostname : Str) (tags : List (List Str)) :
    List (List Str) :=
  if secure then tags ++ [["client".toList, hostname]] else tags

/-- The ten publication categories of the mutation body, in the order the
source publishes them. -/
inductive PubCategory where
  | nip65 | dm | search | blocked | indexer | proxy | broadcast | trusted
  | profile | contactList
deriving DecidableEq, Repr, Fintype

/-- Event kind each category publishes. -/
def kindOf : PubCategory → Nat
  | .nip65 => 10002
  | .dm => 10050
  | .search => 10007
  | .blocked => 10006
  | .indexer => 10086
  | .proxy => 10087
  | .broadcast => 10088
  | .trusted => 10089
  | .profile => 0
  | .contactList => 3

/-- Error-message label of each category, as pushed onto `results.errors`. -/
def labelOf : PubCategory → Str
  | .nip65 => "NIP-65".toList
  | .dm => "DM relays".toList
  | .search => "Search relays".toList
  | .blocked => "Blocked relays".toList
  | .indexer => "Indexer relays".toList
  | .proxy => "Proxy relays".toList
  | .broadcast => "Broadcast relays".toList
  | .trusted => "Trusted relays".toList
  | .profile => "Profile".toList
  | .contactList => "Contact list".toList

/-- The relay list a singleton-tag category publishes. -/
def listOf : PubCategory → RelayListsToPublish → List Str
  | .nip65, _ => []
  | .dm, l => l.dmRelays
  | .search, l => l.searchRelays
  | .blocked, l => l.blockedRelays
  | .indexer, l => l.indexerRelays
  | .proxy, l => l.proxyRelays
  | .broadcast, l => l.broadcastRelays
  | .trusted, l => l.trustedRelays
  | .profile, _ => []
  | .contactList, _ => []

/-- Guard of each category block: the block runs only when its list is
non-empty (for NIP-65, either list), or when the identity event to
broadcast is present. -/
def attemptedCat (c : PubCategory) (l : RelayListsToPublish) : Bool :=
  match c with
  | .nip65 => l.inboxRelays ≠ [] ∨ l.outboxRelays ≠ []
  | .profile => l.profileEvent.isSome
  | .contactList => l.contactListEvent.isSome
  | _ => listOf c l ≠ []

/-- Content of the event each category signs: relay-list kinds publish
empty content, the identity broadcasts re-sign the stored event content. -/
def contentOf (c : PubCategory) (l : RelayListsToPublish) : Str :=
  match c with
  | .profile => ((l.profileEvent.map (fun e => e.content)).getD [])
  | .contactList => ((l.contactListEvent.map (fun e => e.content)).getD [])
  | _ => []

/-- Base tags of the event each category signs (before the client tag):
NIP-65 builds the reconciled `r` tag set, the singleton categories map
each configured url to a `['relay', url]` tag in list order, and the
identity broadcasts reuse the stored tags with any old `client` tag
filtered out. -/
def baseTagsOf (c : PubCategory) (l : RelayListsToPublish) : List (List Str) :=
  match c with
  | .nip65 => buildNIP65Tags l.inboxRelays l.outboxRelays
  | .profile =>
    ((l.profileEvent.map (fun e => e.tags)).getD []).filter
      (fun t => t.head? ≠ some "client".toList)
  | .contactList =>
    ((l.contactListEvent.map (fun e => e.tags)).getD []).filter
      (fun t => t.head? ≠ some "client".toList)
  | _ => (listOf c l).map (fun url => ["relay".toList, url])

/-- The signed event a category block submits. -/
def eventOf (secure : Bool) (hostname : Str) (now : Nat) (l : RelayListsToPublish)
    (c : PubCategory) : UnsignedEvent :=
  { kind := kindOf c, content := contentOf c l,
    tags := addClientTag secure hostname (baseTagsOf c l), created_at := now }

/-- One `if (...) { try { ... } catch ... }` block of the mutation body:
when the guard holds, the event is signed and submitted; a transport
success sets the flag, a transport failure appends a labelled formatted
error.  Returns (flag, errors produced, events submitted). -/
def runBlock (transport : Nat → Option Str) (attempted : Bool) (ev : UnsignedEvent)
    (label : Str) : Bool × List Str × List UnsignedEvent :=
  if attempted then
    match transport ev.kind with
    | none => (true, [], [ev])
    | some msg => (false, [label ++ ": ".toList ++ formatRelayError msg], [ev])
  else (false, [], [])

/-- The block of one category. -/
def runCatBlock (transport : Nat → Option Str) (secure : Bool) (hostname : Str)
    (now : Nat) (l : RelayListsToPublish) (c : PubCategory) :
    Bool × List Str × List UnsignedEvent :=
  runBlock transport (attemptedCat c l) (eventOf secure hostname now l c) (labelOf c)

/-- Embedding of the `mutationFn` body of `usePublishRelayLists`
(`src/hooks/usePublishRelayLists.ts`): the ten category blocks run in
source order, each independently; the result aggregates the per-category
flags and the ordered error list, and the list of events submitted to
the transport is exposed for specification purposes.  The transport is
an oracle from event kind to `none` (accepted) or `some msg` (the
failure message thrown). -/
def publishRelayLists (transport : Nat → Option Str) (secure : Bool) (hostname : Str)
    (now : Nat) (l : RelayListsToPublish) : PublishResult × List UnsignedEvent :=
  let b1 := runCatBlock transport secure hostname now l .nip65
  let b2 := runCatBlock transport secure hostname now l .dm
  let b3 := runCatBlock transport secure hostname now l .search
  let b4 := runCatBlock transport secure hostname now l .blocked
  let b5 := runCatBlock transport secure hostname now l .indexer
  let b6 := runCatBlock transport secure hostname now l .proxy
  let b7 := runCatBlock transport secure hostname now l .broadcast
  let b8 := runCatBlock transport secure hostname now l .trusted
  let b9 := runCatBlock transport secure hostname now l .profile
  let b10 := runCatBlock transport secure hostname now l .contactList
  ({ nip65 := b1.1, dm := b2.1, search := b3.1, blocked := b4.1, indexer := b5.1,
     proxy := b6.1, broadcast := b7.1, trusted := b8.1, profile := b9.1,
     contactList := b10.1,
     errors := b1.2.1 ++ b2.2.1 ++ b3.2.1 ++ b4.2.1 ++ b5.2.1 ++ b6.2.1 ++ b7.2.1 ++
       b8.2.1 ++ b9.2.1 ++ b10.2.1 },
   b1.2.2 ++ b2.2.2 ++ b3.2.2 ++ b4.2.2 ++ b5.2.2 ++ b6.2.2 ++ b7.2.2 ++ b8.2.2 ++
     b9.2.2 ++ b10.2.2)

/-- Flag accessor of the result record per category. -/
def flagOf : PubCategory → PublishResult → Bool
  | .nip65, r => r.nip65
  | .dm, r => r.dm
  | .search, r => r.search
  | .blocked, r => r.blocked
  | .indexer, r => r.indexer
  | .proxy, r => r.proxy
  | .broadcast, r => r.broadcast
  | .trusted, r => r.trusted
  | .profile, r => r.profile
  | .contactList, r => r.contactList

/-- The ten categories in source publication order. -/
def pubCategoryOrder : List PubCategory :=
  [.nip65, .dm, .search, .blocked, .indexer, .proxy, .broadcast, .trusted,
   .profile, .contactList]

/-- Provenance of a contact's relay information. -/
inductive RelaySource where
  | nip65 | profile | both
deriving DecidableEq, Repr

/-- Information about a contact's relay usage (`ContactRelayInfo`). -/
structure ContactRelayInfo where
  pubkey : Str
  relays : List Str
  source : RelaySource
deriving DecidableEq, Repr

/-- A relay suggestion based on contact usage (`RelaySuggestion`). -/
structure RelaySuggestion where
  url : Str
  contactCount : Nat
  contacts : List ContactRelayInfo
  source : RelaySource
  alreadyUsed : Bool
deriving DecidableEq, Repr

/-- Result shape of `useContactRelays` (`ContactRelaysResult`). -/
structure ContactRelaysResult where
  suggestions : List RelaySuggestion
  contactCount : Nat
  analyzedCount : Nat
  queryLog : List (Option Str × List Str)
deriving DecidableEq, Repr

/-- The relays that index NIP-65 data, in order of preference
(`NIP65_RELAYS` in `src/hooks/useRelayPing.ts`). -/
def nip65IndexRelays : List Str :=
  ["wss://purplepag.es".toList, "wss://indexer.coracle.social".toList,
   "wss://user.kindpag.es".toList]

/-- Did the cheap existence probe of one index relay succeed with at
least one record?  A thrown query counts as a miss. -/
def probeHit (probe : Str → Except Unit (List NEvent)) (relayUrl : Str) : Bool :=
  match probe relayUrl with
  | .ok evs => evs.length > 0
  | .error _ => false

/-- The contact pubkeys of a kind-3 contact list: the `p` tags' second
elements, dropping missing and empty values (`.filter(Boolean)`). -/
def contactPubkeysOf (e : NEvent) : List Str :=
  (((e.tags.filter (fun t => t.head? = some "p".toList)).filterMap
    (fun t => t.get? 1)).filter (fun pk => pk ≠ []))

/-- Partition of the contact list into query batches of `BATCH_SIZE`
(100) contacts. -/
def chunk100Aux (fuel : Nat) (l : List Str) : List (List Str) :=
  match fuel, l with
  | 0, _ => []
  | _ + 1, [] => []
  | fuel + 1, x :: xs => ((x :: xs).take 100) :: chunk100Aux fuel ((x :: xs).drop 100)

/-- Partition of the contact list into query batches of `BATCH_SIZE`
(100) contacts; each step consumes at least one element, so the length
of the list is enough fuel. -/
def chunk100 (l : List Str) : List (List Str) := chunk100Aux l.length l

/-- The relay-usage accumulator: a JS `Map` from normalized relay url to
the `Set` of contributing contact pubkeys, both insertion-ordered. -/
abbrev RelayUsage := List (Str × List Str)

/-- Adds one (relay, pubkey) observation: a new relay is appended to the
map, an already-known pubkey is not double-counted. -/
def addUsage (usage : RelayUsage) (relayUrl : Str) (pk : Str) : RelayUsage :=
  if usage.any (fun e => e.1 = relayUrl) then
    usage.map (fun e =>
      if e.1 = relayUrl then (e.1, if pk ∈ e.2 then e.2 else e.2 ++ [pk]) else e)
  else usage ++ [(relayUrl, [pk])]

/-- The contact-info accumulator, keyed by pubkey, insertion-ordered. -/
abbrev ContactInfoMap := List (Str × ContactRelayInfo)

/-- Processing of one NIP-65 event inside the batch loop of
`useContactRelays`: every `r` tag contributes a usage observation, and
the author's contact info is stored on first sight. -/
def processNip65Event (acc : RelayUsage × ContactInfoMap) (e : NEvent) :
    RelayUsage × ContactInfoMap :=
  let relays := (e.tags.filter (fun t => t.head? = some "r".toList)).map
    (fun t => normalizeRelayUrl ((t.get? 1).getD []))
  let usage := relays.foldl (fun u relayUrl => addUsage u relayUrl e.pubkey) acc.1
  let info :=
    if acc.2.any (fun entry => entry.1 = e.pubkey) then acc.2
    else acc.2 ++ [(e.pubkey, { pubkey := e.pubkey, relays := relays,
                                source := RelaySource.nip65 })]
  (usage, info)

/-- The batch loop: each batch is queried against the fixed working
source (`some relay` or `none` for the broad main pool); a failed batch
is skipped; every query is recorded in the log. -/
def runBatches (batchNet : Option Str → List Str → Except Unit (List NEvent))
    (source : Option Str) (batches : List (List Str)) :
    RelayUsage × ContactInfoMap × List (Option Str × List Str) :=
  batches.foldl
    (fun acc batch =>
      match batchNet source batch with
      | .ok evs =>
        let processed := evs.foldl processNip65Event (acc.1, acc.2.1)
        (processed.1, processed.2, acc.2.2 ++ [(source, batch)])
      | .error _ => (acc.1, acc.2.1, acc.2.2 ++ [(source, batch)]))
    ([], [], [])

/-- Stable descending insertion by `contactCount`: the new element goes
after every element with a strictly larger count and before the first
element with a smaller-or-equal count, which is exactly the order the
stable JS `sort((a, b) => b.contactCount - a.contactCount)` produces. -/
def insertByCountDesc (x : RelaySuggestion) : List RelaySuggestion → List RelaySuggestion
  | [] => [x]
  | y :: ys =>
    if x.contactCount < y.contactCount then y :: insertByCountDesc x ys
    else x :: y :: ys

/-- Stable sort by contact count descending. -/
def sortByCountDesc : List RelaySuggestion → List RelaySuggestion
  | [] => []
  | x :: xs => insertByCountDesc x (sortByCountDesc xs)

/-- Builds one suggestion from a usage entry, as the `.map` step of
`useContactRelays` does: contacts resolved through the info map, the
provenance merged over the contributing contacts, `alreadyUsed` decided
by normalized comparison against the user's current relays. -/
def mkSuggestion (info : ContactInfoMap) (userRelaySet : List Str)
    (entry : Str × List Str) : RelaySuggestion :=
  let contacts := entry.2.filterMap
    (fun pk => (info.find? (fun it => it.1 = pk)).map (fun it => it.2))
  let hasNip65 := contacts.any
    (fun c => c.source = RelaySource.nip65 ∨ c.source = RelaySource.both)
  let hasProfile := contacts.any
    (fun c => c.source = RelaySource.profile ∨ c.source = RelaySource.both)
  { url := entry.1,
    contactCount := entry.2.length,
    contacts := contacts,
    source := if hasNip65 ∧ hasProfile then RelaySource.both
              else if hasNip65 then RelaySource.nip65 else RelaySource.profile,
    alreadyUsed := userRelaySet.any (fun userRelay => isSameRelay userRelay entry.1) }

/-- Embedding of the query function of `useContactRelays` in
`src/hooks/useRelayPing.ts`.  Network effects are oracles: `probe` is
the cheap kind-10002 existence query against one index relay, `batchNet`
is the per-batch authors query against the chosen source (`none` being
the broad main pool).  The contact list is the result of the kind-3
query.  Returns the ranked suggestions, the contact and analyzed counts,
and the log of batch queries issued. -/
def aggregateContactRelays (probe : Str → Except Unit (List NEvent))
    (batchNet : Option Str → List Str → Except Unit (List NEvent))
    (contactEvents : List NEvent) (userRelays : List Str) : ContactRelaysResult :=
  match contactEvents.head? with
  | none => { suggestions := [], contactCount := 0, analyzedCount := 0, queryLog := [] }
  | some contactListEvent =>
    let contactPubkeys := contactPubkeysOf contactListEvent
    if contactPubkeys = [] then
      { suggestions := [], contactCount := 0, analyzedCount := 0, queryLog := [] }
    else
      let workingRelay := nip65IndexRelays.find? (probeHit probe)
      let batchResult := runBatches batchNet workingRelay (chunk100 contactPubkeys)
      let userRelaySet := userRelays.map normalizeRelayUrl
      let suggestions := sortByCountDesc
        (batchResult.1.map (mkSuggestion batchResult.2.1 userRelaySet))
      { suggestions := suggestions,
        contactCount := contactPubkeys.length,
        analyzedCount := batchResult.2.1.length,
        queryLog := batchResult.2.2 }

/-- A review event whose first `r` tag has no url while a later `r` tag
does; used to probe the first-tag behavior of `parseReviewEvent`. -/
def reviewEventBareFirstRTag : NEvent :=
  { id := "1".toList, pubkey := "a".toList, kind := 1986, content := [],
    tags := [["r".toList], ["r".toList, "wss://x.com".toList]], created_at := 0 }

/-- The error entries one category block contributes: one labelled
formatted message when the block ran and its transport submission threw,
nothing otherwise. -/
def catError (transport : Nat → Option Str) (l : RelayListsToPublish)
    (c : PubCategory) : List Str :=
  match transport (kindOf c) with
  | some msg =>
    if attemptedCat c l then [labelOf c ++ ": ".toList ++ formatRelayError msg] else []
  | none => []

/-- The events one category block signs and submits: exactly its event
when the block ran, nothing otherwise. -/
def catEvents (secure : Bool) (hostname : Str) (now : Nat) (l : RelayListsToPublish)
    (c : PubCategory) : List UnsignedEvent :=
  if attemptedCat c l then [eventOf secure hostname now l c] else []

/-- A transport oracle that rejects exactly kind-10050 submissions, used
as a concrete one-category-fails scenario. -/
def exampleTransportDmFails : Nat → Option Str :=
  fun k => if k = 10050 then some "boom".toList else none

/-- Lists with exactly the DM, search and blocked categories non-empty. -/
def exampleListsThree : RelayListsToPublish :=
  { inboxRelays := [], outboxRelays := [], dmRelays := ["wss://dm.example".toList],
    searchRelays := ["wss://s.example".toList], blockedRelays := ["wss://b.example".toList],
    indexerRelays := [], proxyRelays := [], broadcastRelays := [], trustedRelays := [] }

/-- The pre-sort suggestion list of one aggregation run, in discovery
(insertion) order: the usage map's entries mapped to suggestions before
the stable sort. -/
def discoveredSuggestions (probe : Str → Except Unit (List NEvent))
    (batchNet : Option Str → List Str → Except Unit (List NEvent))
    (contactEvents : List NEvent) (userRelays : List Str) : List RelaySuggestion :=
  match contactEvents.head? with
  | none => []
  | some contactListEvent =>
    let contactPubkeys := contactPubkeysOf contactListEvent
    if contactPubkeys = [] then []
    else
      let workingRelay := nip65IndexRelays.find? (probeHit probe)
      let batchResult := runBatches batchNet workingRelay (chunk100 contactPubkeys)
      batchResult.1.map (mkSuggestion batchResult.2.1 (userRelays.map normalizeRelayUrl))

/-- A concrete index-chain probe: the first preference errors, the
others hold data. -/
def exampleProbe : Str → Except Unit (List NEvent) := fun r =>
  if r = "wss://purplepag.es".toList then .error ()
  else .ok [{ id := "e0".toList, pubkey := "z".toList, kind := 10002, content := [],
              tags := [], created_at := 0 }]

/-- A concrete kind-10002 event advertising the given relays. -/
def exampleNip65Event (pk : Str) (relays : List Str) : NEvent :=
  { id := pk, pubkey := pk, kind := 10002, content := [],
    tags := relays.map (fun r => ["r".toList, r]), created_at := 0 }

/-- A concrete kind-3 contact list with three contacts. -/
def exampleContactEvent : NEvent :=
  { id := "cl".toList, pubkey := "me".toList, kind := 3, content := [],
    tags := [["p".toList, "c1".toList], ["p".toList, "c2".toList],
             ["p".toList, "c3".toList]], created_at := 0 }

/-- A concrete batch oracle: contact c1 uses X and Y, c2 uses X, c3 uses
Y and Z, with X discovered before Y. -/
def exampleBatchNet : Option Str → List Str → Except Unit (List NEvent) := fun _ _ =>
  .ok [exampleNip65Event "c1".toList ["wss://x.com".toList, "wss://y.com".toList],
       exampleNip65Event "c2".toList ["wss://x.com".toList],
       exampleNip65Event "c3".toList ["wss://y.com".toList, "wss://z.com".toList]]

/-- A review event with one url-carrying `r` tag and no rating tag. -/
def exampleReviewEvent : NEvent :=
  { id := "2".toList, pubkey := "b".toList, kind := 1986, content := "ok".toList,
    tags := [["r".toList, "wss://y.com".toList]], created_at := 5 }

/-- Value of a little-endian digit list. -/
def digitsValLE : List Nat → Nat
  | [] => 0
  | d :: L => d + 10 * digitsValLE L

/-- A relay URL assembled from a scheme choice, a host, an optional
explicit scheme-default port and an optional trailing slash. -/
def mkRelayUrl (useWss : Bool) (host : Str) (withPort : Bool) (withSlash : Bool) : Str :=
  (if useWss then "wss".toList else "ws".toList) ++ "://".toList ++ host ++
  (if withPort then (if useWss then ":443".toList else ":80".toList) else []) ++
  (if withSlash then "/".toList else [])

/-! ## Helper lemmas -/

theorem charOfNat_toNat (n : Nat) (h : n < 55296) : (Char.ofNat n).toNat = n := by
  rw [Char.ofNat]
  rw [dif_pos (Or.inl h)]
  simp [Char.ofNatAux, Char.toNat, UInt32.toNat, UInt32.ofNatCore]

theorem char_toNat_inj {a b : Char} (h : a.toNat = b.toNat) : a = b := by
  apply Char.ext
  apply UInt32.ext
  simpa [Char.toNat, UInt32.toNat] using h

theorem lowerChar_toNat_of_upper {c : Char} (h : 'A' ≤ c ∧ c ≤ 'Z') :
    (lowerChar c).toNat = c.toNat + 32 := by
  have h1 : 65 ≤ c.toNat := by simpa [Char.le_def, Char.toNat] using h.1
  have h2 : c.toNat ≤ 90 := by simpa [Char.le_def, Char.toNat] using h.2
  rw [lowerChar, if_pos h]
  exact charOfNat_toNat _ (by omega)

theorem lowerChar_eq_self_of_not_upper {c : Char} (h : ¬('A' ≤ c ∧ c ≤ 'Z')) :
    lowerChar c = c := by
  rw [lowerChar, if_neg h]

theorem upper_iff_toNat {c : Char} : ('A' ≤ c ∧ c ≤ 'Z') ↔ (65 ≤ c.toNat ∧ c.toNat ≤ 90) := by
  simp [Char.le_def, Char.toNat, UInt32.le_def, BitVec.le_def, UInt32.toNat]

theorem lowerChar_idem (c : Char) : lowerChar (lowerChar c) = lowerChar c := by
  by_cases h : 'A' ≤ c ∧ c ≤ 'Z'
  · have ht := lowerChar_toNat_of_upper h
    have hb : 65 ≤ c.toNat ∧ c.toNat ≤ 90 := upper_iff_toNat.mp h
    apply lowerChar_eq_self_of_not_upper
    rw [upper_iff_toNat, ht]
    omega
  · rw [lowerChar_eq_self_of_not_upper h, lowerChar_eq_self_of_not_upper h]

theorem lowerStr_idem (s : Str) : lowerStr (lowerStr s) = lowerStr s := by
  simp only [lowerStr, List.map_map]
  exact List.map_congr_left (fun c _ => lowerChar_idem c)

theorem lowerChar_eq_self_of_toNat_lt {c : Char} (h : c.toNat < 65) : lowerChar c = c := by
  apply lowerChar_eq_self_of_not_upper
  rw [upper_iff_toNat]
  omega

theorem lowerChar_eq_iff_of_toNat_lt {c d : Char} (hd : d.toNat < 65) :
    lowerChar c = d ↔ c = d := by
  constructor
  · intro h
    by_cases hc : 'A' ≤ c ∧ c ≤ 'Z'
    · have := lowerChar_toNat_of_upper hc
      have hb := upper_iff_toNat.mp hc
      rw [h] at this
      omega
    · rwa [lowerChar_eq_self_of_not_upper hc] at h
  · intro h
    rw [h]
    exact lowerChar_eq_self_of_toNat_lt hd

theorem find?_append_of_none {α : Type} {p : α → Bool} {l1 l2 : List α}
    (h : l1.find? p = none) : (l1 ++ l2).find? p = l2.find? p := by
  induction l1 with
  | nil => simp
  | cons a l ih =>
    rw [List.find?_cons] at h
    cases hp : p a with
    | true => simp [hp] at h
    | false =>
      rw [hp] at h
      simp [List.find?_cons, hp, ih h]

theorem find?_append_of_notin {α : Type} {p : α → Bool} {l1 l2 : List α}
    (h : ∀ x ∈ l2, ¬ p x = true) : (l1 ++ l2).find? p = l1.find? p := by
  induction l1 with
  | nil =>
    simp only [List.nil_append, List.find?_nil]
    rw [List.find?_eq_none]
    exact h
  | cons a l ih =>
    cases hp : p a with
    | true => simp only [List.cons_append, List.find?_cons, hp]
    | false =>
      simp only [List.cons_append, List.find?_cons, hp]
      exact ih

theorem find?_map_set {m : List (Str × RelayStatusWithInfo)} {k q : Str}
    {v : RelayStatusWithInfo} (h : q ≠ k) :
    (m.map (fun e => if e.1 = k then (k, v) else e)).find? (fun e => e.1 = q) =
      m.find? (fun e => e.1 = q) := by
  induction m with
  | nil => simp
  | cons e m' ih =>
    by_cases he : e.1 = k
    · have h1 : decide (((k, v) : Str × RelayStatusWithInfo).1 = q) = false :=
        decide_eq_false (fun hh => h hh.symm)
      have h2 : decide (e.1 = q) = false :=
        decide_eq_false (fun hh => h (hh.symm.trans he))
      simp only [List.map_cons, if_pos he, List.find?_cons, h1, h2]
      exact ih
    · have h3 : (if e.1 = k then (k, v) else e) = e := if_neg he
      by_cases hq : e.1 = q
      · have h4 : decide (e.1 = q) = true := decide_eq_true hq
        simp only [List.map_cons, h3, List.find?_cons, h4]
      · have h4 : decide (e.1 = q) = false := decide_eq_false hq
        simp only [List.map_cons, h3, List.find?_cons, h4]
        exact ih

theorem mapGet_mapSet_self (m : List (Str × RelayStatusWithInfo)) (k : Str)
    (v : RelayStatusWithInfo) : mapGet (mapSet m k v) k = some v := by
  rw [mapSet]
  by_cases hany : m.any (fun e => e.1 = k)
  · rw [if_pos hany]
    induction m with
    | nil => simp at hany
    | cons e m' ih =>
      by_cases he : e.1 = k
      · have h4 : decide (((k, v) : Str × RelayStatusWithInfo).1 = k) = true :=
          decide_eq_true rfl
        simp only [mapGet, List.map_cons, if_pos he, List.find?_cons, h4]
        rfl
      · have hfalse : decide (e.1 = k) = false := decide_eq_false he
        have hm' : m'.any (fun e => e.1 = k) = true := by
          rw [List.any_cons, hfalse, Bool.false_or] at hany
          exact hany
        have step := ih hm'
        simp only [mapGet, List.map_cons, if_neg he, List.find?_cons, hfalse] at step ⊢
        exact step
  · rw [if_neg hany]
    have hnone : m.find? (fun e => e.1 = k) = none := by
      rw [List.find?_eq_none]
      intro x hx
      simp only [List.any_eq_true, not_exists, not_and] at hany
      simpa using hany x hx
    rw [mapGet, find?_append_of_none hnone]
    have h4 : decide (((k, v) : Str × RelayStatusWithInfo).1 = k) = true := decide_eq_true rfl
    simp only [List.find?_cons, h4]
    rfl

theorem mapGet_mapSet_ne (m : List (Str × RelayStatusWithInfo)) (k : Str)
    (v : RelayStatusWithInfo) (q : Str) (h : q ≠ k) :
    mapGet (mapSet m k v) q = mapGet m q := by
  rw [mapSet]
  by_cases hany : m.any (fun e => e.1 = k)
  · rw [if_pos hany, mapGet, mapGet, find?_map_set h]
  · rw [if_neg hany, mapGet, mapGet]
    have hlast : ∀ x ∈ [(k, v)],
        ¬((fun (e : Str × RelayStatusWithInfo) => decide (e.1 = q)) x = true) := by
      intro x hx
      simp only [List.mem_singleton] at hx
      subst hx
      simp only [decide_eq_true_eq]
      exact fun hh => h hh.symm
    rw [find?_append_of_notin hlast]

/-! ## Claim theorems -/

/-- C7: `testRelay` never raises: every fetch outcome resolves to a
status object.  On an ok HTTP response the state buckets the measured
latency (`good` below 100 ms, `ok` below 300 ms, `bad` otherwise) and a
failed capability-body parse only omits the NIP-11 info; a thrown fetch
(timeout, network failure) or a non-ok response yields state `bad` with
null latency. -/
theorem testRelay_probe_contract (url : Str) (fetch : FetchOutcome) (latency now : Nat) :
    (testRelayResult url fetch latency now).url = url ∧
    (fetch = FetchOutcome.thrown →
      testRelayResult url fetch latency now =
        { url := url, latency := none, status := .bad, lastTested := now, nip11 := none }) ∧
    (∀ body, fetch = FetchOutcome.response false body →
      testRelayResult url fetch latency now =
        { url := url, latency := none, status := .bad, lastTested := now, nip11 := none }) ∧
    (∀ body, fetch = FetchOutcome.response true body →
      (testRelayResult url fetch latency now).latency = some latency ∧
      (testRelayResult url fetch latency now).nip11 = body ∧
      (testRelayResult url fetch latency now).status =
        (if latency < 100 then RelayStatusType.good
         else if latency < 300 then RelayStatusType.ok else RelayStatusType.bad)) := by
  refine ⟨?_, ?_, ?_, ?_⟩
  · cases fetch with
    | thrown => rfl
    | response ok body => cases ok <;> simp [testRelayResult]
  · intro h
    subst h
    rfl
  · intro body h
    subst h
    rfl
  · intro body h
    subst h
    simp [testRelayResult, categorizeLatency]

/-- Witness for C7 at a concrete probe: an ok response with latency 50
and an unparsable body gives a `good` status without capability info. -/
theorem testRelay_probe_contract_witness :
    (testRelayResult "wss://relay.damus.io".toList (FetchOutcome.response true none) 50 0).latency
        = some 50 ∧
    (testRelayResult "wss://relay.damus.io".toList (FetchOutcome.response true none) 50 0).status
        = RelayStatusType.good := by
  have h := (testRelay_probe_contract "wss://relay.damus.io".toList
    (FetchOutcome.response true none) 50 0).2.2.2 none rfl
  refine ⟨h.1, ?_⟩
  rw [h.2.2]
  decide

/-- C5 counterexample: the statuses map written by `testRelay` is keyed
by the raw url, not by its canonical identity: after probing
`wss://A.com` there is no entry under the canonical key, and probing the
same identity under two raw spellings leaves two separate entries. -/
theorem statusMap_not_keyed_by_identity :
    mapGet (testRelayStatuses [] "wss://A.com".toList FetchOutcome.thrown 0 0)
        (normalizeRelayUrl "wss://A.com".toList) = none ∧
    normalizeRelayUrl "wss://A.com".toList = normalizeRelayUrl "wss://a.com".toList ∧
    (testRelayStatuses (testRelayStatuses [] "wss://A.com".toList FetchOutcome.thrown 0 0)
        "wss://a.com".toList FetchOutcome.thrown 0 0).length = 2 := by
  decide

/-- C5 amended: after `testRelay(url)` completes, the statuses map holds
the probe result under the raw `url` key exactly as passed, and every
other key is untouched; canonically equal but differently spelled raw
URLs therefore occupy distinct entries rather than one shared entry. -/
theorem statusMap_keyed_by_raw_url (prev : List (Str × RelayStatusWithInfo)) (url : Str)
    (fetch : FetchOutcome) (latency now : Nat) :
    mapGet (testRelayStatuses prev url fetch latency now) url =
      some (testRelayResult url fetch latency now) ∧
    (∀ k, k ≠ url → mapGet (testRelayStatuses prev url fetch latency now) k = mapGet prev k) := by
  constructor
  · rw [testRelayStatuses]
    exact mapGet_mapSet_self _ _ _
  · intro k hk
    rw [testRelayStatuses]
    rw [mapGet_mapSet_ne _ _ _ _ hk, mapGet_mapSet_ne _ _ _ _ hk]

/-- Witness for C5 amended at a concrete probe and a concrete other key. -/
theorem statusMap_keyed_by_raw_url_witness :
    mapGet (testRelayStatuses [] "wss://A.com".toList FetchOutcome.thrown 0 0)
        "wss://A.com".toList =
      some (testRelayResult "wss://A.com".toList FetchOutcome.thrown 0 0) ∧
    mapGet (testRelayStatuses [] "wss://A.com".toList FetchOutcome.thrown 0 0)
        "wss://a.com".toList = mapGet [] "wss://a.com".toList :=
  ⟨(statusMap_keyed_by_raw_url [] "wss://A.com".toList FetchOutcome.thrown 0 0).1,
   (statusMap_keyed_by_raw_url [] "wss://A.com".toList FetchOutcome.thrown 0 0).2
     "wss://a.com".toList (by decide)⟩

/-- C10 counterexample: `parseReviewEvent` inspects only the first `r`
tag, so an event whose first `r` tag lacks a url parses to null even
though a later `r` tag carries one — refuting that null is returned
exactly when the event has no `r` tag carrying a URL. -/
theorem parseReviewEvent_null_despite_url_r_tag :
    parseReviewEvent reviewEventBareFirstRTag = none ∧
    (∃ t ∈ reviewEventBareFirstRTag.tags,
      t.head? = some "r".toList ∧ (tagUrl t).isSome = true) := by
  decide


theorem runBlock_flag (t : Nat → Option Str) (a : Bool) (ev : UnsignedEvent) (lb : Str) :
    (runBlock t a ev lb).1 = (a && (t ev.kind).isNone) := by
  cases a with
  | false => rfl
  | true => cases h : t ev.kind <;> simp [runBlock, h]

theorem runBlock_errors (t : Nat → Option Str) (a : Bool) (ev : UnsignedEvent) (lb : Str) :
    (runBlock t a ev lb).2.1 =
      (match t ev.kind with
       | some msg => if a then [lb ++ ": ".toList ++ formatRelayError msg] else []
       | none => []) := by
  cases a <;> cases h : t ev.kind <;> simp [runBlock, h]

theorem runBlock_events (t : Nat → Option Str) (a : Bool) (ev : UnsignedEvent) (lb : Str) :
    (runBlock t a ev lb).2.2 = if a then [ev] else [] := by
  cases a <;> cases h : t ev.kind <;> simp [runBlock, h]

theorem eventOf_kind (secure : Bool) (hostname : Str) (now : Nat) (l : RelayListsToPublish)
    (c : PubCategory) : (eventOf secure hostname now l c).kind = kindOf c := rfl

theorem publish_flag_spec (t : Nat → Option Str) (secure : Bool) (hostname : Str)
    (now : Nat) (l : RelayListsToPublish) (c : PubCategory) :
    flagOf c (publishRelayLists t secure hostname now l).1 =
      (attemptedCat c l && (t (kindOf c)).isNone) := by
  cases c <;>
    simp only [publishRelayLists, flagOf, runCatBlock, runBlock_flag, eventOf_kind]

theorem publish_errors_spec (t : Nat → Option Str) (secure : Bool) (hostname : Str)
    (now : Nat) (l : RelayListsToPublish) :
    (publishRelayLists t secure hostname now l).1.errors =
      catError t l .nip65 ++ catError t l .dm ++ catError t l .search ++
      catError t l .blocked ++ catError t l .indexer ++ catError t l .proxy ++
      catError t l .broadcast ++ catError t l .trusted ++ catError t l .profile ++
      catError t l .contactList := by
  simp only [publishRelayLists, runCatBlock, runBlock_errors, eventOf_kind, catError]

theorem publish_events_spec (t : Nat → Option Str) (secure : Bool) (hostname : Str)
    (now : Nat) (l : RelayListsToPublish) :
    (publishRelayLists t secure hostname now l).2 =
      catEvents secure hostname now l .nip65 ++ catEvents secure hostname now l .dm ++
      catEvents secure hostname now l .search ++ catEvents secure hostname now l .blocked ++
      catEvents secure hostname now l .indexer ++ catEvents secure hostname now l .proxy ++
      catEvents secure hostname now l .broadcast ++ catEvents secure hostname now l .trusted ++
      catEvents secure hostname now l .profile ++ catEvents secure hostname now l .contactList := by
  simp only [publishRelayLists, runCatBlock, runBlock_events, catEvents]

/-- C2: publishing with exactly three categories attempted and exactly
one of them rejected by the transport sets the two surviving flags to
true and every other flag (including the failed one) to false, and
produces exactly one error entry, labelled with the failed category's
name; the two successes are unaffected by the failure. -/
theorem publish_single_failure_independence
    (c1 c2 c3 : PubCategory) (msg : Str) (transport : Nat → Option Str)
    (secure : Bool) (hostname : Str) (now : Nat) (l : RelayListsToPublish)
    (h12 : c1 ≠ c2) (h13 : c1 ≠ c3) (_h23 : c2 ≠ c3)
    (hatt : ∀ c, attemptedCat c l = true ↔ (c = c1 ∨ c = c2 ∨ c = c3))
    (htr1 : transport (kindOf c1) = some msg)
    (htr2 : ∀ c : PubCategory, c ≠ c1 → transport (kindOf c) = none) :
    (∀ c, flagOf c (publishRelayLists transport secure hostname now l).1 = true ↔
      (c = c2 ∨ c = c3)) ∧
    (publishRelayLists transport secure hostname now l).1.errors =
      [labelOf c1 ++ ": ".toList ++ formatRelayError msg] := by
  constructor
  · intro c
    rw [publish_flag_spec]
    by_cases hc1 : c = c1
    · subst hc1
      have ha : attemptedCat c l = true := (hatt c).mpr (Or.inl rfl)
      rw [ha, htr1]
      simp only [Option.isNone_some, Bool.and_false]
      constructor
      · intro hfalse
        exact absurd hfalse (by simp)
      · rintro (h | h)
        · exact absurd h h12
        · exact absurd h h13
    · have hn : transport (kindOf c) = none := htr2 c hc1
      rw [hn]
      simp only [Option.isNone_none, Bool.and_true]
      rw [hatt c]
      constructor
      · rintro (h | h | h)
        · exact absurd h hc1
        · exact Or.inl h
        · exact Or.inr h
      · rintro (h | h)
        · exact Or.inr (Or.inl h)
        · exact Or.inr (Or.inr h)
  · rw [publish_errors_spec]
    have hres : ∀ c : PubCategory, catError transport l c =
        if c = c1 then [labelOf c1 ++ ": ".toList ++ formatRelayError msg] else [] := by
      intro c
      by_cases hc : c = c1
      · subst hc
        rw [catError, htr1]
        simp [(hatt c).mpr (Or.inl rfl)]
      · rw [catError, htr2 c hc]
        simp [hc]
    rw [hres .nip65, hres .dm, hres .search, hres .blocked, hres .indexer, hres .proxy,
      hres .broadcast, hres .trusted, hres .profile, hres .contactList]
    cases c1 <;> simp

/-- Witness for C2: DM, search and blocked lists are non-empty, the
transport rejects only the DM kind; search succeeds, DM fails, the only
error entry is the DM-labelled one. -/
theorem publish_single_failure_independence_witness :
    flagOf PubCategory.search
        (publishRelayLists exampleTransportDmFails false [] 0 exampleListsThree).1 = true ∧
    flagOf PubCategory.dm
        (publishRelayLists exampleTransportDmFails false [] 0 exampleListsThree).1 = false ∧
    (publishRelayLists exampleTransportDmFails false [] 0 exampleListsThree).1.errors =
      [labelOf PubCategory.dm ++ ": ".toList ++ formatRelayError "boom".toList] := by
  have h := publish_single_failure_independence PubCategory.dm PubCategory.search
    PubCategory.blocked "boom".toList exampleTransportDmFails false [] 0 exampleListsThree
    (by decide) (by decide) (by decide) (by decide) (by decide) (by decide)
  refine ⟨(h.1 _).mpr (Or.inl rfl), ?_, h.2⟩
  have hdm := h.1 PubCategory.dm
  have hno : ¬(PubCategory.dm = PubCategory.search ∨ PubCategory.dm = PubCategory.blocked) := by
    decide
  exact Bool.eq_false_iff.mpr (fun hf => hno (hdm.mp hf))

theorem addClientTag_eq (secure : Bool) (hostname : Str) (tags : List (List Str)) :
    addClientTag secure hostname tags =
      tags ++ (if secure then [["client".toList, hostname]] else []) := by
  cases secure <;> simp [addClientTag]

theorem filter_kind_catEvents_ne {k : Nat} (c' : PubCategory) (secure : Bool)
    (hostname : Str) (now : Nat) (l : RelayListsToPublish) (hk : kindOf c' ≠ k) :
    (catEvents secure hostname now l c').filter (fun ev => ev.kind = k) = [] := by
  rw [catEvents]
  by_cases ha : attemptedCat c' l = true
  · rw [if_pos ha]
    have hd : decide ((eventOf secure hostname now l c').kind = k) = false := by
      rw [eventOf_kind]
      exact decide_eq_false hk
    simp [List.filter, hd]
  · rw [if_neg ha]
    rfl

theorem filter_kind_catEvents_self (c' : PubCategory) (secure : Bool)
    (hostname : Str) (now : Nat) (l : RelayListsToPublish)
    (ha : attemptedCat c' l = true) :
    (catEvents secure hostname now l c').filter (fun ev => ev.kind = kindOf c') =
      [eventOf secure hostname now l c'] := by
  rw [catEvents, if_pos ha]
  have hd : decide ((eventOf secure hostname now l c').kind = kindOf c') = true := by
    rw [eventOf_kind]
    exact decide_eq_true rfl
  simp [List.filter, hd]


theorem attemptedCat_of_listOf_ne {l : RelayListsToPublish} (c : PubCategory)
    (h : listOf c l ≠ []) : attemptedCat c l = true := by
  cases c <;> first
  | exact absurd rfl h
  | exact decide_eq_true h

/-- C9: for each singleton-tag category (direct-message 10050, search
10007, block-list 10006, indexer 10086, proxy 10087, broadcast 10088,
trusted 10089), publishing a non-empty list signs and submits exactly
one record of that kind, whose tags are one `['relay', url]` tag per
configured endpoint in list order, followed by a `['client', hostname]`
tag exactly when the invoking context is a secure origin. -/
theorem publish_category_record_contract
    (c : PubCategory)
    (hc : c ∈ ([.dm, .search, .blocked, .indexer, .proxy, .broadcast,
      .trusted] : List PubCategory))
    (transport : Nat → Option Str) (secure : Bool) (hostname : Str) (now : Nat)
    (l : RelayListsToPublish) (hne : listOf c l ≠ []) :
    ((publishRelayLists transport secure hostname now l).2.filter
        (fun ev => ev.kind = kindOf c)) =
      [{ kind := kindOf c, content := [],
         tags := (listOf c l).map (fun url => ["relay".toList, url]) ++
           (if secure then [["client".toList, hostname]] else []),
         created_at := now }] := by
  rw [publish_events_spec]
  fin_cases hc <;>
  · rw [List.filter_append, List.filter_append, List.filter_append, List.filter_append,
      List.filter_append, List.filter_append, List.filter_append, List.filter_append,
      List.filter_append]
    rw [filter_kind_catEvents_self _ _ _ _ _ (attemptedCat_of_listOf_ne _ hne)]
    rw [filter_kind_catEvents_ne .nip65 _ _ _ _ (by decide),
      filter_kind_catEvents_ne .profile _ _ _ _ (by decide),
      filter_kind_catEvents_ne .contactList _ _ _ _ (by decide)]
    first
    | rw [filter_kind_catEvents_ne .search _ _ _ _ (by decide),
        filter_kind_catEvents_ne .blocked _ _ _ _ (by decide),
        filter_kind_catEvents_ne .indexer _ _ _ _ (by decide),
        filter_kind_catEvents_ne .proxy _ _ _ _ (by decide),
        filter_kind_catEvents_ne .broadcast _ _ _ _ (by decide),
        filter_kind_catEvents_ne .trusted _ _ _ _ (by decide)]
    | rw [filter_kind_catEvents_ne .dm _ _ _ _ (by decide),
        filter_kind_catEvents_ne .blocked _ _ _ _ (by decide),
        filter_kind_catEvents_ne .indexer _ _ _ _ (by decide),
        filter_kind_catEvents_ne .proxy _ _ _ _ (by decide),
        filter_kind_catEvents_ne .broadcast _ _ _ _ (by decide),
        filter_kind_catEvents_ne .trusted _ _ _ _ (by decide)]
    | rw [filter_kind_catEvents_ne .dm _ _ _ _ (by decide),
        filter_kind_catEvents_ne .search _ _ _ _ (by decide),
        filter_kind_catEvents_ne .indexer _ _ _ _ (by decide),
        filter_kind_catEvents_ne .proxy _ _ _ _ (by decide),
        filter_kind_catEvents_ne .broadcast _ _ _ _ (by decide),
        filter_kind_catEvents_ne .trusted _ _ _ _ (by decide)]
    | rw [filter_kind_catEvents_ne .dm _ _ _ _ (by decide),
        filter_kind_catEvents_ne .search _ _ _ _ (by decide),
        filter_kind_catEvents_ne .blocked _ _ _ _ (by decide),
        filter_kind_catEvents_ne .proxy _ _ _ _ (by decide),
        filter_kind_catEvents_ne .broadcast _ _ _ _ (by decide),
        filter_kind_catEvents_ne .trusted _ _ _ _ (by decide)]
    | rw [filter_kind_catEvents_ne .dm _ _ _ _ (by decide),
        filter_kind_catEvents_ne .search _ _ _ _ (by decide),
        filter_kind_catEvents_ne .blocked _ _ _ _ (by decide),
        filter_kind_catEvents_ne .indexer _ _ _ _ (by decide),
        filter_kind_catEvents_ne .broadcast _ _ _ _ (by decide),
        filter_kind_catEvents_ne .trusted _ _ _ _ (by decide)]
    | rw [filter_kind_catEvents_ne .dm _ _ _ _ (by decide),
        filter_kind_catEvents_ne .search _ _ _ _ (by decide),
        filter_kind_catEvents_ne .blocked _ _ _ _ (by decide),
        filter_kind_catEvents_ne .indexer _ _ _ _ (by decide),
        filter_kind_catEvents_ne .proxy _ _ _ _ (by decide),
        filter_kind_catEvents_ne .trusted _ _ _ _ (by decide)]
    | rw [filter_kind_catEvents_ne .dm _ _ _ _ (by decide),
        filter_kind_catEvents_ne .search _ _ _ _ (by decide),
        filter_kind_catEvents_ne .blocked _ _ _ _ (by decide),
        filter_kind_catEvents_ne .indexer _ _ _ _ (by decide),
        filter_kind_catEvents_ne .proxy _ _ _ _ (by decide),
        filter_kind_catEvents_ne .broadcast _ _ _ _ (by decide)]
    simp [eventOf, contentOf, baseTagsOf, addClientTag_eq, listOf]

/-- Witness for C9: the concrete search-category publication over
`exampleListsThree` signs one kind-10007 record with one relay tag. -/
theorem publish_category_record_contract_witness :
    ((publishRelayLists exampleTransportDmFails false [] 0 exampleListsThree).2.filter
        (fun ev => ev.kind = kindOf PubCategory.search)) =
      [{ kind := kindOf PubCategory.search, content := [],
         tags := (listOf PubCategory.search exampleListsThree).map
             (fun url => ["relay".toList, url]) ++
           (if false then [["client".toList, []]] else []),
         created_at := 0 }] :=
  publish_category_record_contract PubCategory.search (by decide)
    exampleTransportDmFails false [] 0 exampleListsThree (by decide)


theorem findWorking_eq_chain (probe : Str → Except Unit (List NEvent)) :
    nip65IndexRelays.find? (probeHit probe) =
      (if probeHit probe "wss://purplepag.es".toList then
        some "wss://purplepag.es".toList
       else if probeHit probe "wss://indexer.coracle.social".toList then
        some "wss://indexer.coracle.social".toList
       else if probeHit probe "wss://user.kindpag.es".toList then
        some "wss://user.kindpag.es".toList
       else none) := by
  cases h1 : probeHit probe "wss://purplepag.es".toList <;>
  cases h2 : probeHit probe "wss://indexer.coracle.social".toList <;>
  cases h3 : probeHit probe "wss://user.kindpag.es".toList <;>
  simp only [nip65IndexRelays, List.find?_cons, List.find?_nil, h1, h2, h3] <;>
  rfl

theorem runBatches_log_source (net : Option Str → List Str → Except Unit (List NEvent))
    (src : Option Str) (batches : List (List Str)) :
    ∀ q ∈ (runBatches net src batches).2.2, q.1 = src := by
  rw [runBatches]
  have step : ∀ (bs : List (List Str)) (acc : RelayUsage × ContactInfoMap ×
      List (Option Str × List Str)), (∀ q ∈ acc.2.2, q.1 = src) →
      ∀ q ∈ (bs.foldl (fun acc batch =>
        match net src batch with
        | .ok evs =>
          let processed := evs.foldl processNip65Event (acc.1, acc.2.1)
          (processed.1, processed.2, acc.2.2 ++ [(src, batch)])
        | .error _ => (acc.1, acc.2.1, acc.2.2 ++ [(src, batch)])) acc).2.2, q.1 = src := by
    intro bs
    induction bs with
    | nil => exact fun acc h => h
    | cons b bs ih =>
      intro acc hacc
      rw [List.foldl_cons]
      apply ih
      cases hnet : net src b with
      | ok evs =>
        simp only [hnet]
        intro q hq
        rcases List.mem_append.mp hq with h | h
        · exact hacc q h
        · rw [List.mem_singleton.mp h]
      | error e =>
        simp only [hnet]
        intro q hq
        rcases List.mem_append.mp hq with h | h
        · exact hacc q h
        · rw [List.mem_singleton.mp h]
  exact step batches ([], [], []) (by simp)

/-- C4: within one aggregation run, the statically ordered index chain
(purplepag.es, indexer.coracle.social, user.kindpag.es) is probed in
priority order with a cheap existence query; the first endpoint whose
probe returns at least one record is the source of every batch query of
the run, and when no endpoint yields a record every batch query goes to
the broad main pool (`none`). -/
theorem index_fallback_chain (probe : Str → Except Unit (List NEvent))
    (batchNet : Option Str → List Str → Except Unit (List NEvent))
    (contactEvents : List NEvent) (userRelays : List Str) :
    ∀ q ∈ (aggregateContactRelays probe batchNet contactEvents userRelays).queryLog,
      q.1 = (if probeHit probe "wss://purplepag.es".toList then
              some "wss://purplepag.es".toList
             else if probeHit probe "wss://indexer.coracle.social".toList then
              some "wss://indexer.coracle.social".toList
             else if probeHit probe "wss://user.kindpag.es".toList then
              some "wss://user.kindpag.es".toList
             else none) := by
  intro q hq
  rw [← findWorking_eq_chain probe]
  unfold aggregateContactRelays at hq
  cases hh : contactEvents.head? with
  | none =>
    rw [hh] at hq
    simp at hq
  | some ev =>
    rw [hh] at hq
    by_cases hcp : contactPubkeysOf ev = []
    · simp [hcp] at hq
    · simp only [hcp, if_neg, if_false] at hq
      exact runBatches_log_source _ _ _ q hq

/-- Witness for C4: with the first index relay failing and the second
holding data, the single batch query of the concrete run goes to the
second relay, the first successful element of the chain. -/
theorem index_fallback_chain_witness :
    ((some "wss://indexer.coracle.social".toList,
        ["c1".toList, "c2".toList, "c3".toList]) :
      Option Str × List Str).1 =
      (if probeHit exampleProbe "wss://purplepag.es".toList then
        some "wss://purplepag.es".toList
       else if probeHit exampleProbe "wss://indexer.coracle.social".toList then
        some "wss://indexer.coracle.social".toList
       else if probeHit exampleProbe "wss://user.kindpag.es".toList then
        some "wss://user.kindpag.es".toList
       else none) :=
  index_fallback_chain exampleProbe exampleBatchNet [exampleContactEvent] []
    (some "wss://indexer.coracle.social".toList,
      ["c1".toList, "c2".toList, "c3".toList]) (by decide)


theorem mem_insertByCountDesc {x z : RelaySuggestion} {l : List RelaySuggestion} :
    z ∈ insertByCountDesc x l ↔ z = x ∨ z ∈ l := by
  induction l with
  | nil => simp [insertByCountDesc]
  | cons y ys ih =>
    rw [insertByCountDesc]
    by_cases h : x.contactCount < y.contactCount
    · rw [if_pos h]
      simp only [List.mem_cons, ih]
      tauto
    · rw [if_neg h]
      simp only [List.mem_cons]

theorem sorted_insertByCountDesc {x : RelaySuggestion} {l : List RelaySuggestion}
    (h : List.Sorted (fun a b => b.contactCount ≤ a.contactCount) l) :
    List.Sorted (fun a b => b.contactCount ≤ a.contactCount) (insertByCountDesc x l) := by
  induction l with
  | nil => simp [insertByCountDesc]
  | cons y ys ih =>
    rw [List.sorted_cons] at h
    rw [insertByCountDesc]
    by_cases hx : x.contactCount < y.contactCount
    · rw [if_pos hx]
      rw [List.sorted_cons]
      refine ⟨?_, ih h.2⟩
      intro z hz
      rcases mem_insertByCountDesc.mp hz with hzx | hzl
      · subst hzx
        omega
      · exact h.1 z hzl
    · rw [if_neg hx]
      rw [List.sorted_cons]
      refine ⟨?_, List.sorted_cons.mpr h⟩
      intro z hz
      rcases List.mem_cons.mp hz with hzy | hzl
      · subst hzy
        omega
      · have := h.1 z hzl
        omega

theorem sorted_sortByCountDesc (l : List RelaySuggestion) :
    List.Sorted (fun a b => b.contactCount ≤ a.contactCount) (sortByCountDesc l) := by
  induction l with
  | nil => simp [sortByCountDesc]
  | cons x xs ih => exact sorted_insertByCountDesc ih

theorem filter_insertByCountDesc_eq {x : RelaySuggestion} {l : List RelaySuggestion}
    {k : Nat} (hx : x.contactCount = k) :
    (insertByCountDesc x l).filter (fun s => s.contactCount = k) =
      x :: l.filter (fun s => s.contactCount = k) := by
  induction l with
  | nil => simp [insertByCountDesc, List.filter, decide_eq_true hx]
  | cons y ys ih =>
    rw [insertByCountDesc]
    by_cases h : x.contactCount < y.contactCount
    · rw [if_pos h]
      have hy : decide (y.contactCount = k) = false := decide_eq_false (by omega)
      simp only [List.filter, hy, ih]
    · rw [if_neg h]
      simp only [List.filter, decide_eq_true hx]

theorem filter_insertByCountDesc_ne {x : RelaySuggestion} {l : List RelaySuggestion}
    {k : Nat} (hx : x.contactCount ≠ k) :
    (insertByCountDesc x l).filter (fun s => s.contactCount = k) =
      l.filter (fun s => s.contactCount = k) := by
  induction l with
  | nil => simp [insertByCountDesc, List.filter, decide_eq_false hx]
  | cons y ys ih =>
    rw [insertByCountDesc]
    by_cases h : x.contactCount < y.contactCount
    · rw [if_pos h]
      cases hy : decide (y.contactCount = k) <;> simp only [List.filter, hy, ih]
    · rw [if_neg h]
      simp only [List.filter, decide_eq_false hx]

theorem filter_sortByCountDesc (l : List RelaySuggestion) (k : Nat) :
    (sortByCountDesc l).filter (fun s => s.contactCount = k) =
      l.filter (fun s => s.contactCount = k) := by
  induction l with
  | nil => rfl
  | cons x xs ih =>
    rw [sortByCountDesc]
    by_cases hx : x.contactCount = k
    · rw [filter_insertByCountDesc_eq hx, ih]
      simp only [List.filter, decide_eq_true hx]
    · rw [filter_insertByCountDesc_ne hx, ih]
      simp only [List.filter, decide_eq_false hx]

theorem aggregate_suggestions_eq (probe : Str → Except Unit (List NEvent))
    (batchNet : Option Str → List Str → Except Unit (List NEvent))
    (contactEvents : List NEvent) (userRelays : List Str) :
    (aggregateContactRelays probe batchNet contactEvents userRelays).suggestions =
      sortByCountDesc (discoveredSuggestions probe batchNet contactEvents userRelays) := by
  unfold aggregateContactRelays discoveredSuggestions
  cases hh : contactEvents.head? with
  | none => rfl
  | some ev =>
    by_cases hcp : contactPubkeysOf ev = []
    · simp [hcp, sortByCountDesc]
    · simp [hcp]

/-- C6: the suggestion list of every aggregation run is totally ordered
by `contactCount` descending, and suggestions with equal `contactCount`
keep their first-seen discovery order (for every count value, filtering
the ranked list and the discovery-ordered list agree); in the concrete
run where C1 uses X and Y, C2 uses X, C3 uses Y and Z and X is
discovered before Y, the ranking is X(2), Y(2), Z(1). -/
theorem suggestion_ranking (probe : Str → Except Unit (List NEvent))
    (batchNet : Option Str → List Str → Except Unit (List NEvent))
    (contactEvents : List NEvent) (userRelays : List Str) :
    List.Sorted (fun a b => b.contactCount ≤ a.contactCount)
      (aggregateContactRelays probe batchNet contactEvents userRelays).suggestions ∧
    (∀ k, (aggregateContactRelays probe batchNet contactEvents
        userRelays).suggestions.filter (fun s => s.contactCount = k) =
      (discoveredSuggestions probe batchNet contactEvents userRelays).filter
        (fun s => s.contactCount = k)) ∧
    ((aggregateContactRelays exampleProbe exampleBatchNet [exampleContactEvent]
        []).suggestions.map (fun s => (s.url, s.contactCount)) =
      [("wss://x.com".toList, 2), ("wss://y.com".toList, 2),
       ("wss://z.com".toList, 1)]) := by
  refine ⟨?_, ?_, by decide⟩
  · rw [aggregate_suggestions_eq]
    exact sorted_sortByCountDesc _
  · intro k
    rw [aggregate_suggestions_eq, filter_sortByCountDesc]


theorem parseNIP65Tags_append (a b : List (List Str)) :
    parseNIP65Tags (a ++ b) = parseNIP65Tags a ++ parseNIP65Tags b := by
  simp [parseNIP65Tags, List.filter_append]

theorem getInboxRelays_append (a b : List NIP65Relay) :
    getInboxRelays (a ++ b) = getInboxRelays a ++ getInboxRelays b := by
  simp [getInboxRelays, List.filter_append]

theorem getOutboxRelays_append (a b : List NIP65Relay) :
    getOutboxRelays (a ++ b) = getOutboxRelays a ++ getOutboxRelays b := by
  simp [getOutboxRelays, List.filter_append]

theorem inbox_of_outboxTags (outbox : List Str) (seen : List Str) :
    getInboxRelays (parseNIP65Tags (nip65OutboxTags outbox seen)) = [] := by
  induction outbox generalizing seen with
  | nil => rfl
  | cons u rest ih =>
    simp only [nip65OutboxTags]
    by_cases h : normalizeRelayUrl u ∈ seen
    · rw [if_pos h]
      exact ih seen
    · rw [if_neg h]
      have hparse : getInboxRelays (parseNIP65Tags
          (["r".toList, u, "write".toList] ::
            nip65OutboxTags rest (normalizeRelayUrl u :: seen))) =
          getInboxRelays (parseNIP65Tags
            (nip65OutboxTags rest (normalizeRelayUrl u :: seen))) := by
        simp [parseNIP65Tags, getInboxRelays, tagMarker]
      rw [hparse]
      exact ih _

theorem outbox_of_outboxTags (outbox : List Str) (seen : List Str)
    (hnorm : ∀ u ∈ outbox, normalizeRelayUrl u = u) (x : Str) :
    x ∈ getOutboxRelays (parseNIP65Tags (nip65OutboxTags outbox seen)) ↔
      (x ∈ outbox ∧ x ∉ seen) := by
  induction outbox generalizing seen with
  | nil => simp [nip65OutboxTags, parseNIP65Tags, getOutboxRelays]
  | cons u rest ih =>
    have hu : normalizeRelayUrl u = u := hnorm u (List.mem_cons_self u rest)
    have hrest : ∀ v ∈ rest, normalizeRelayUrl v = v :=
      fun v hv => hnorm v (List.mem_cons_of_mem u hv)
    simp only [nip65OutboxTags, hu]
    by_cases h : u ∈ seen
    · rw [if_pos h, ih seen hrest]
      constructor
      · rintro ⟨hx, hs⟩
        exact ⟨List.mem_cons_of_mem u hx, hs⟩
      · rintro ⟨hx, hs⟩
        rcases List.mem_cons.mp hx with hxu | hxr
        · exact absurd (hxu ▸ h) hs
        · exact ⟨hxr, hs⟩
    · rw [if_neg h]
      have hparse : getOutboxRelays (parseNIP65Tags
          (["r".toList, u, "write".toList] :: nip65OutboxTags rest (u :: seen))) =
          u :: getOutboxRelays (parseNIP65Tags (nip65OutboxTags rest (u :: seen))) := by
        simp [parseNIP65Tags, getOutboxRelays, tagMarker, hu]
      rw [hparse]
      rw [List.mem_cons, ih (u :: seen) hrest]
      by_cases hx : x = u
      · subst hx
        simp [h]
      · simp only [hx, false_or, List.mem_cons]

theorem inbox_of_inboxTags (oset : List Str) (inbox : List Str) (seen : List Str)
    (hnorm : ∀ u ∈ inbox, normalizeRelayUrl u = u) (x : Str) :
    x ∈ getInboxRelays (parseNIP65Tags (nip65InboxTags oset inbox seen).1) ↔
      (x ∈ inbox ∧ x ∉ seen) := by
  induction inbox generalizing seen with
  | nil => simp [nip65InboxTags, parseNIP65Tags, getInboxRelays]
  | cons u rest ih =>
    have hu : normalizeRelayUrl u = u := hnorm u (List.mem_cons_self u rest)
    have hrest : ∀ v ∈ rest, normalizeRelayUrl v = v :=
      fun v hv => hnorm v (List.mem_cons_of_mem u hv)
    simp only [nip65InboxTags, hu]
    by_cases h : u ∈ seen
    · rw [if_pos h, ih seen hrest]
      constructor
      · rintro ⟨hx, hs⟩
        exact ⟨List.mem_cons_of_mem u hx, hs⟩
      · rintro ⟨hx, hs⟩
        rcases List.mem_cons.mp hx with hxu | hxr
        · exact absurd (hxu ▸ h) hs
        · exact ⟨hxr, hs⟩
    · rw [if_neg h]
      have hparse : getInboxRelays (parseNIP65Tags
          ((if u ∈ oset then ["r".toList, u] else ["r".toList, u, "read".toList]) ::
            (nip65InboxTags oset rest (u :: seen)).1)) =
          u :: getInboxRelays (parseNIP65Tags (nip65InboxTags oset rest (u :: seen)).1) := by
        by_cases ho : u ∈ oset
        · rw [if_pos ho]
          simp [parseNIP65Tags, getInboxRelays, tagMarker, hu]
        · rw [if_neg ho]
          simp [parseNIP65Tags, getInboxRelays, tagMarker, hu]
      rw [hparse]
      rw [List.mem_cons, ih (u :: seen) hrest]
      by_cases hx : x = u
      · subst hx
        simp [h]
      · simp only [hx, false_or, List.mem_cons]


theorem outbox_of_inboxTags (oset : List Str) (inbox : List Str) (seen : List Str)
    (hnorm : ∀ u ∈ inbox, normalizeRelayUrl u = u) (x : Str) :
    x ∈ getOutboxRelays (parseNIP65Tags (nip65InboxTags oset inbox seen).1) ↔
      (x ∈ inbox ∧ x ∈ oset ∧ x ∉ seen) := by
  induction inbox generalizing seen with
  | nil => simp [nip65InboxTags, parseNIP65Tags, getOutboxRelays]
  | cons u rest ih =>
    have hu : normalizeRelayUrl u = u := hnorm u (List.mem_cons_self u rest)
    have hrest : ∀ v ∈ rest, normalizeRelayUrl v = v :=
      fun v hv => hnorm v (List.mem_cons_of_mem u hv)
    simp only [nip65InboxTags, hu]
    by_cases h : u ∈ seen
    · rw [if_pos h, ih seen hrest]
      constructor
      · rintro ⟨hx, ho, hs⟩
        exact ⟨List.mem_cons_of_mem u hx, ho, hs⟩
      · rintro ⟨hx, ho, hs⟩
        rcases List.mem_cons.mp hx with hxu | hxr
        · exact absurd (hxu ▸ h) hs
        · exact ⟨hxr, ho, hs⟩
    · rw [if_neg h]
      by_cases ho : u ∈ oset
      · rw [if_pos ho]
        have hparse : getOutboxRelays (parseNIP65Tags
            (["r".toList, u] :: (nip65InboxTags oset rest (u :: seen)).1)) =
            u :: getOutboxRelays (parseNIP65Tags (nip65InboxTags oset rest (u :: seen)).1) := by
          simp [parseNIP65Tags, getOutboxRelays, tagMarker, hu]
        rw [hparse, List.mem_cons, ih (u :: seen) hrest]
        by_cases hx : x = u
        · subst hx
          simp [h, ho]
        · simp only [hx, false_or, List.mem_cons]
      · rw [if_neg ho]
        have hparse : getOutboxRelays (parseNIP65Tags
            (["r".toList, u, "read".toList] :: (nip65InboxTags oset rest (u :: seen)).1)) =
            getOutboxRelays (parseNIP65Tags (nip65InboxTags oset rest (u :: seen)).1) := by
          simp [parseNIP65Tags, getOutboxRelays, tagMarker]
        rw [hparse, ih (u :: seen) hrest]
        by_cases hx : x = u
        · subst hx
          simp [ho, h]
        · simp only [List.mem_cons, hx, false_or]

theorem seen_of_inboxTags (oset : List Str) (inbox : List Str) (seen : List Str)
    (hnorm : ∀ u ∈ inbox, normalizeRelayUrl u = u) (x : Str) :
    x ∈ (nip65InboxTags oset inbox seen).2 ↔ (x ∈ seen ∨ x ∈ inbox) := by
  induction inbox generalizing seen with
  | nil => simp [nip65InboxTags]
  | cons u rest ih =>
    have hu : normalizeRelayUrl u = u := hnorm u (List.mem_cons_self u rest)
    have hrest : ∀ v ∈ rest, normalizeRelayUrl v = v :=
      fun v hv => hnorm v (List.mem_cons_of_mem u hv)
    simp only [nip65InboxTags, hu]
    by_cases h : u ∈ seen
    · rw [if_pos h, ih seen hrest, List.mem_cons]
      constructor
      · rintro (hs | hr)
        · exact Or.inl hs
        · exact Or.inr (Or.inr hr)
      · rintro (hs | hxu | hr)
        · exact Or.inl hs
        · exact Or.inl (hxu ▸ h)
        · exact Or.inr hr
    · rw [if_neg h]
      have : (((if u ∈ oset then ["r".toList, u] else ["r".toList, u, "read".toList]) ::
          (nip65InboxTags oset rest (u :: seen)).1), (nip65InboxTags oset rest
            (u :: seen)).2).2 = (nip65InboxTags oset rest (u :: seen)).2 := rfl
      rw [this, ih (u :: seen) hrest, List.mem_cons, List.mem_cons]
      tauto

/-- C1: the kind-10002 round trip: building the tag set with
`buildNIP65Tags` from canonical inbox and outbox URL lists (identity in
both lists bare, only-inbox marked `read`, only-outbox marked `write`,
first-seen raw URL kept per identity) and re-parsing those `r` tags as
`useUserRelays` does (no marker means read and write) reconstructs
exactly the original read set and write set. -/
theorem nip65_roundtrip (inbox outbox : List Str)
    (hin : ∀ u ∈ inbox, normalizeRelayUrl u = u)
    (hout : ∀ u ∈ outbox, normalizeRelayUrl u = u) :
    (∀ x, x ∈ getInboxRelays (parseNIP65Tags (buildNIP65Tags inbox outbox)) ↔ x ∈ inbox) ∧
    (∀ x, x ∈ getOutboxRelays (parseNIP65Tags (buildNIP65Tags inbox outbox)) ↔
      x ∈ outbox) := by
  have hoset : outbox.map normalizeRelayUrl = outbox := by
    conv_rhs => rw [← List.map_id outbox]
    exact List.map_congr_left hout
  simp only [buildNIP65Tags, hoset]
  constructor
  · intro x
    rw [parseNIP65Tags_append, getInboxRelays_append, List.mem_append]
    rw [inbox_of_outboxTags]
    rw [inbox_of_inboxTags outbox inbox [] hin x]
    simp
  · intro x
    rw [parseNIP65Tags_append, getOutboxRelays_append, List.mem_append]
    rw [outbox_of_inboxTags outbox inbox [] hin x]
    rw [outbox_of_outboxTags outbox _ hout x]
    rw [seen_of_inboxTags outbox inbox [] hin x]
    simp only [List.not_mem_nil, not_false_iff, and_true, false_or]
    constructor
    · rintro (⟨hi, ho⟩ | ⟨ho, _⟩) <;> exact ho
    · intro ho
      by_cases hi : x ∈ inbox
      · exact Or.inl ⟨hi, ho⟩
      · exact Or.inr ⟨ho, hi⟩

/-- Witness for C1 at the concrete lists inbox = [a, b],
outbox = [b, c]: a is reconstructed as a read relay. -/
theorem nip65_roundtrip_witness :
    "wss://a.example".toList ∈ getInboxRelays (parseNIP65Tags (buildNIP65Tags
      ["wss://a.example".toList, "wss://b.example".toList]
      ["wss://b.example".toList, "wss://c.example".toList])) :=
  ((nip65_roundtrip
      ["wss://a.example".toList, "wss://b.example".toList]
      ["wss://b.example".toList, "wss://c.example".toList]
      (by decide) (by decide)).1 "wss://a.example".toList).mpr (by decide)


/-- C10 amended: `parseReviewEvent` returns null exactly when the
event's first `r` tag is missing or carries no (non-empty) url; for a
parsed review the rating always lies in [0, 1]: a missing rating tag or
a non-numeric rating value defaults it to 0.5, a numeric value above 1
is read as a 1-5 scale, divided by 5 and clamped, and a numeric value at
most 1 is clamped. -/
theorem parseReviewEvent_contract (e : NEvent) :
    (parseReviewEvent e = none ↔
      (∀ t, firstTagNamed "r".toList e = some t → tagUrl t = none)) ∧
    (∀ r, parseReviewEvent e = some r → 0 ≤ r.rating ∧ r.rating ≤ 1) ∧
    (∀ r, parseReviewEvent e = some r → firstTagNamed "rating".toList e = none →
      r.rating = 1/2) ∧
    (∀ r rt, parseReviewEvent e = some r → firstTagNamed "rating".toList e = some rt →
      parseJsFloat ((rt.get? 1).getD []) = none → r.rating = 1/2) ∧
    (∀ r rt q, parseReviewEvent e = some r → firstTagNamed "rating".toList e = some rt →
      parseJsFloat ((rt.get? 1).getD []) = some q → q > 1 →
      r.rating = max 0 (min 1 (q / 5))) ∧
    (∀ r rt q, parseReviewEvent e = some r → firstTagNamed "rating".toList e = some rt →
      parseJsFloat ((rt.get? 1).getD []) = some q → ¬(q > 1) →
      r.rating = max 0 (min 1 q)) := by
  have hhalf : (0 : ℚ) ≤ 1/2 ∧ (1 : ℚ)/2 ≤ 1 := by norm_num
  have hclamp : ∀ x : ℚ, 0 ≤ max 0 (min 1 x) ∧ max 0 (min 1 x) ≤ 1 := by
    intro x
    constructor
    · exact le_max_left 0 (min 1 x)
    · exact max_le (by norm_num) (min_le_left 1 x)
  rw [parseReviewEvent]
  cases h1 : firstTagNamed "r".toList e with
  | none =>
    refine ⟨by simp, ?_, ?_, ?_, ?_, ?_⟩ <;> intros <;> simp_all
  | some t =>
    cases h2 : tagUrl t with
    | none =>
      simp only [h2]
      refine ⟨by simp [h2], ?_, ?_, ?_, ?_, ?_⟩ <;> intros <;> simp_all
    | some url =>
      simp only [h2]
      refine ⟨by simp [h2], ?_, ?_, ?_, ?_, ?_⟩
      · intro r hr
        simp only [Option.some_inj] at hr
        rw [← hr]
        cases h3 : firstTagNamed "rating".toList e with
        | none =>
          simp only [h3]
          exact hhalf
        | some rt =>
          simp only [h3]
          cases h4 : parseJsFloat ((rt.get? 1).getD []) with
          | none =>
            simp only [h4]
            exact hhalf
          | some q =>
            simp only [h4]
            exact hclamp _
      · intro r hr h3
        simp only [Option.some_inj] at hr
        rw [← hr]
        simp only [h3]
      · intro r rt hr h3 h4
        simp only [Option.some_inj] at hr
        rw [← hr]
        simp only [h3, h4]
      · intro r rt q hr h3 h4 hq
        simp only [Option.some_inj] at hr
        rw [← hr]
        simp only [h3, h4]
        simp [hq]
      · intro r rt q hr h3 h4 hq
        simp only [Option.some_inj] at hr
        rw [← hr]
        simp only [h3, h4]
        simp [hq]

/-- Witness for C10 amended at a concrete review event without a rating
tag: the parsed review exists and its rating, the 0.5 default, lies in
the unit interval. -/
theorem parseReviewEvent_contract_witness :
    0 ≤ ({ id := "2".toList, pubkey := "b".toList,
           relayUrl := normalizeRelayUrl "wss://y.com".toList,
           content := "ok".toList, rating := 1/2,
           createdAt := 5 } : RelayReview).rating ∧
    ({ id := "2".toList, pubkey := "b".toList,
       relayUrl := normalizeRelayUrl "wss://y.com".toList,
       content := "ok".toList, rating := 1/2,
       createdAt := 5 } : RelayReview).rating ≤ 1 :=
  (parseReviewEvent_contract exampleReviewEvent).2.1 _ rfl


theorem takeWhile_append_all {p : Char → Bool} {l r : Str} (h : ∀ c ∈ l, p c = true) :
    (l ++ r).takeWhile p = l ++ r.takeWhile p := by
  induction l with
  | nil => simp
  | cons a l ih =>
    have ha := h a (List.mem_cons_self a l)
    simp only [List.cons_append, List.takeWhile_cons, ha, if_true]
    rw [ih (fun c hc => h c (List.mem_cons_of_mem a hc))]

theorem dropWhile_append_all {p : Char → Bool} {l r : Str} (h : ∀ c ∈ l, p c = true) :
    (l ++ r).dropWhile p = r.dropWhile p := by
  induction l with
  | nil => simp
  | cons a l ih =>
    have ha := h a (List.mem_cons_self a l)
    simp only [List.cons_append, List.dropWhile_cons, ha, if_true]
    exact ih (fun c hc => h c (List.mem_cons_of_mem a hc))

theorem takeWhile_append_singleton {p : Char → Bool} {c : Char} (l : Str)
    (hc : p c = false) : (l ++ [c]).takeWhile p = l.takeWhile p := by
  induction l with
  | nil => simp [List.takeWhile_cons, hc]
  | cons a l ih =>
    cases ha : p a with
    | false => simp [List.takeWhile_cons, ha]
    | true => simp only [List.cons_append, List.takeWhile_cons, ha, ih, if_true]

theorem dropWhile_append_singleton {p : Char → Bool} {c : Char} (l : Str)
    (hc : p c = false) : (l ++ [c]).dropWhile p = l.dropWhile p ++ [c] := by
  induction l with
  | nil => simp [List.dropWhile_cons, hc]
  | cons a l ih =>
    cases ha : p a with
    | false => simp [List.dropWhile_cons, ha]
    | true => simp only [List.cons_append, List.dropWhile_cons, ha, ih, if_true]

theorem takeWhile_map_comm {f : Char → Char} {p : Char → Bool}
    (hp : ∀ c, p (f c) = p c) (l : Str) :
    (l.map f).takeWhile p = (l.takeWhile p).map f := by
  induction l with
  | nil => simp
  | cons a l ih =>
    cases ha : p a with
    | false => simp [List.takeWhile_cons, hp a, ha]
    | true => simp only [List.map_cons, List.takeWhile_cons, hp a, ha, ih, if_true]

theorem dropWhile_map_comm {f : Char → Char} {p : Char → Bool}
    (hp : ∀ c, p (f c) = p c) (l : Str) :
    (l.map f).dropWhile p = (l.dropWhile p).map f := by
  induction l with
  | nil => simp
  | cons a l ih =>
    cases ha : p a with
    | false => simp [List.dropWhile_cons, hp a, ha]
    | true => simp only [List.map_cons, List.dropWhile_cons, hp a, ha, ih, if_true]

theorem lowerChar_eq_slash_iff {c : Char} : lowerChar c = '/' ↔ c = '/' :=
  lowerChar_eq_iff_of_toNat_lt (by decide)

theorem lowerChar_eq_colon_iff {c : Char} : lowerChar c = ':' ↔ c = ':' :=
  lowerChar_eq_iff_of_toNat_lt (by decide)

theorem digit_iff_toNat {c : Char} :
    isDigitChar c = true ↔ (48 ≤ c.toNat ∧ c.toNat ≤ 57) := by
  simp [isDigitChar, Char.le_def, Char.toNat, UInt32.le_def, BitVec.le_def, UInt32.toNat]

theorem lowerChar_fixes_digit {c : Char} (h : isDigitChar c = true) : lowerChar c = c := by
  apply lowerChar_eq_self_of_toNat_lt
  have h2 := digit_iff_toNat.mp h
  omega

theorem isDigitChar_lowerChar (c : Char) : isDigitChar (lowerChar c) = isDigitChar c := by
  by_cases h : 'A' ≤ c ∧ c ≤ 'Z'
  · have ht := lowerChar_toNat_of_upper h
    have hb := upper_iff_toNat.mp h
    have hlow : isDigitChar (lowerChar c) = false := by
      rw [← Bool.not_eq_true, digit_iff_toNat]
      omega
    have hc : isDigitChar c = false := by
      rw [← Bool.not_eq_true, digit_iff_toNat]
      omega
    rw [hlow, hc]
  · rw [lowerChar_eq_self_of_not_upper h]

theorem pred_ne_slash_lowerChar (c : Char) :
    (fun c => decide (c ≠ '/')) (lowerChar c) = (fun c => decide (c ≠ '/')) c := by
  simp only [ne_eq, decide_not]
  by_cases h : c = '/'
  · rw [h]
    rfl
  · have : ¬(lowerChar c = '/') := fun hh => h (lowerChar_eq_slash_iff.mp hh)
    simp [h, this]

theorem pred_ne_colon_lowerChar (c : Char) :
    (fun c => decide (c ≠ ':')) (lowerChar c) = (fun c => decide (c ≠ ':')) c := by
  simp only [ne_eq, decide_not]
  by_cases h : c = ':'
  · rw [h]
    rfl
  · have : ¬(lowerChar c = ':') := fun hh => h (lowerChar_eq_colon_iff.mp hh)
    simp [h, this]


theorem splitScheme_cons_none {c : Char} {a : Str} (h : splitScheme (c :: a) = none) :
    ¬(c = ':' ∧ a.take 2 = ['/', '/']) ∧ splitScheme a = none := by
  by_cases hc : c = ':' ∧ a.take 2 = ['/', '/']
  · rw [splitScheme, if_pos hc] at h
    exact absurd h (by simp)
  · rw [splitScheme, if_neg hc] at h
    refine ⟨hc, ?_⟩
    cases hs : splitScheme a with
    | none => rfl
    | some p =>
      rw [hs] at h
      exact absurd h (by simp)

theorem splitScheme_none_append {a : Str} (b : Str) (ha : splitScheme a = none) :
    splitScheme (a ++ ':' :: '/' :: '/' :: b) = some (a, b) := by
  induction a with
  | nil => simp [splitScheme]
  | cons c a' ih =>
    obtain ⟨hc, ha'⟩ := splitScheme_cons_none ha
    have hcond : ¬(c = ':' ∧ (a' ++ ':' :: '/' :: '/' :: b).take 2 = ['/', '/']) := by
      rintro ⟨rfl, htake⟩
      apply hc
      refine ⟨rfl, ?_⟩
      match a', htake with
      | [], htake => simp at htake
      | [x], htake => simp at htake
      | x :: y :: t, htake =>
        simp only [List.cons_append, List.take] at htake ⊢
        exact htake
    rw [List.cons_append, splitScheme, if_neg hcond, ih ha']
    rfl

theorem splitScheme_eq_some {s sc r : Str} (h : splitScheme s = some (sc, r)) :
    s = sc ++ ':' :: '/' :: '/' :: r ∧ splitScheme sc = none := by
  induction s generalizing sc r with
  | nil => exact absurd h (by simp [splitScheme])
  | cons c rest ih =>
    by_cases hc : c = ':' ∧ rest.take 2 = ['/', '/']
    · rw [splitScheme, if_pos hc] at h
      simp only [Option.some_inj, Prod.mk.injEq] at h
      obtain ⟨hsc, hr⟩ := h
      subst hsc
      subst hr
      refine ⟨?_, rfl⟩
      rw [List.nil_append, hc.1]
      have := List.take_append_drop 2 rest
      rw [hc.2] at this
      conv_lhs => rw [← this]
      rfl
    · rw [splitScheme, if_neg hc] at h
      cases hs : splitScheme rest with
      | none =>
        rw [hs] at h
        exact absurd h (by simp)
      | some p =>
        obtain ⟨p1, p2⟩ := p
        rw [hs] at h
        simp only [Option.map_some', Option.some_inj, Prod.mk.injEq] at h
        obtain ⟨h1, h2⟩ := h
        obtain ⟨hrest, hnone⟩ := ih hs
        subst h1
        subst h2
        constructor
        · rw [List.cons_append, ← hrest]
        · have hcond : ¬(c = ':' ∧ p1.take 2 = ['/', '/']) := by
            rintro ⟨rfl, htake⟩
            apply hc
            refine ⟨rfl, ?_⟩
            match p1, htake, hrest with
            | x :: y :: t, htake, hrest =>
              simp only [List.take, List.cons.injEq, and_true] at htake
              obtain ⟨hx, hy⟩ := htake
              subst hx
              subst hy
              rw [hrest]
              rfl
          rw [splitScheme, if_neg hcond, hnone]
          rfl


theorem splitScheme_prefix_none {a b : Str} (h : splitScheme (a ++ b) = none) :
    splitScheme a = none := by
  induction a with
  | nil => rfl
  | cons c a' ih =>
    rw [List.cons_append] at h
    obtain ⟨hc, ha'⟩ := splitScheme_cons_none h
    have hcond : ¬(c = ':' ∧ a'.take 2 = ['/', '/']) := by
      rintro ⟨rfl, htake⟩
      apply hc
      refine ⟨rfl, ?_⟩
      match a', htake with
      | x :: y :: t, htake =>
        simp only [List.take, List.cons.injEq, and_true] at htake
        obtain ⟨hx, hy⟩ := htake
        subst hx
        subst hy
        rfl
    rw [splitScheme, if_neg hcond, ih ha']
    rfl

theorem lowerStr_take (n : Nat) (l : Str) : (lowerStr l).take n = lowerStr (l.take n) := by
  simp [lowerStr, List.map_take]

theorem lowerStr_eq_slash_slash_iff {l : Str} :
    lowerStr l = ['/', '/'] ↔ l = ['/', '/'] := by
  constructor
  · intro h
    rcases l with _ | ⟨x, _ | ⟨y, _ | ⟨z, t⟩⟩⟩
    · simp [lowerStr] at h
    · simp only [lowerStr, List.map_cons, List.map_nil] at h
      exact absurd h (by simp)
    · simp only [lowerStr, List.map_cons, List.map_nil, List.cons.injEq, and_true] at h
      obtain ⟨hx, hy⟩ := h
      rw [lowerChar_eq_slash_iff.mp hx, lowerChar_eq_slash_iff.mp hy]
    · simp only [lowerStr, List.map_cons, List.cons.injEq] at h
      exact absurd h.2.2 (by simp)
  · intro h
    subst h
    rfl

theorem splitScheme_lower (s : Str) :
    splitScheme (lowerStr s) =
      (splitScheme s).map (fun p => (lowerStr p.1, lowerStr p.2)) := by
  induction s with
  | nil => rfl
  | cons c rest ih =>
    have hcond : (lowerChar c = ':' ∧ (lowerStr rest).take 2 = ['/', '/']) ↔
        (c = ':' ∧ rest.take 2 = ['/', '/']) := by
      rw [lowerChar_eq_colon_iff, lowerStr_take, lowerStr_eq_slash_slash_iff]
    show splitScheme (lowerChar c :: lowerStr rest) = _
    by_cases hc : c = ':' ∧ rest.take 2 = ['/', '/']
    · rw [splitScheme, if_pos (hcond.mpr hc)]
      rw [splitScheme, if_pos hc]
      simp [lowerStr, List.map_drop]
    · rw [splitScheme, if_neg (fun hh => hc (hcond.mp hh))]
      rw [splitScheme, if_neg hc, ih]
      cases splitScheme rest <;> simp [lowerStr]


theorem natDigitsAux_lt_ten {fuel n : Nat} : ∀ d ∈ natDigitsAux fuel n, d < 10 := by
  induction fuel generalizing n with
  | zero => simp [natDigitsAux]
  | succ fuel ih =>
    intro d hd
    rw [natDigitsAux] at hd
    by_cases hn : n = 0
    · simp [hn] at hd
    · rw [if_neg hn] at hd
      rcases List.mem_cons.mp hd with h | h
      · rw [h]
        exact Nat.mod_lt n (by omega)
      · exact ih d h

theorem digitVal_digitChar {d : Nat} (h : d < 10) : digitVal (digitChar d) = d := by
  interval_cases d <;> decide

theorem isDigitChar_digitChar {d : Nat} (h : d < 10) : isDigitChar (digitChar d) = true := by
  interval_cases d <;> decide

theorem digitsVal_append_singleton (l : Str) (c : Char) :
    digitsVal (l ++ [c]) = 10 * digitsVal l + digitVal c := by
  simp only [digitsVal, List.foldl_append, List.foldl_cons, List.foldl_nil]
  omega

theorem digitsVal_reverse_map {L : List Nat} (h : ∀ d ∈ L, d < 10) :
    digitsVal ((L.reverse).map digitChar) = digitsValLE L := by
  induction L with
  | nil => rfl
  | cons d L ih =>
    rw [List.reverse_cons, List.map_append]
    simp only [List.map_cons, List.map_nil]
    rw [digitsVal_append_singleton]
    rw [ih (fun x hx => h x (List.mem_cons_of_mem d hx))]
    rw [digitVal_digitChar (h d (List.mem_cons_self d L))]
    rw [digitsValLE]
    omega

theorem digitsValLE_natDigitsAux {fuel n : Nat} (h : n ≤ fuel) :
    digitsValLE (natDigitsAux fuel n) = n := by
  induction fuel generalizing n with
  | zero =>
    rw [Nat.le_zero] at h
    subst h
    rfl
  | succ fuel ih =>
    rw [natDigitsAux]
    by_cases hn : n = 0
    · subst hn
      simp [digitsValLE]
    · rw [if_neg hn, digitsValLE]
      rw [ih (by
        have := Nat.div_lt_self (Nat.pos_of_ne_zero hn) (by omega : 1 < 10)
        omega)]
      omega

theorem digitsVal_natDigits (n : Nat) : digitsVal (natDigits n) = n := by
  by_cases hn : n = 0
  · subst hn
    decide
  · rw [natDigits, if_neg hn]
    rw [digitsVal_reverse_map natDigitsAux_lt_ten]
    exact digitsValLE_natDigitsAux (Nat.le_refl n)

theorem natDigits_ne_nil (n : Nat) : natDigits n ≠ [] := by
  by_cases hn : n = 0
  · subst hn
    decide
  · rw [natDigits, if_neg hn]
    obtain ⟨k, rfl⟩ := Nat.exists_eq_succ_of_ne_zero hn
    simp [natDigitsAux]

theorem natDigits_all_digits (n : Nat) : (natDigits n).all isDigitChar = true := by
  rw [List.all_eq_true]
  intro c hc
  by_cases hn : n = 0
  · subst hn
    simp [natDigits] at hc
    subst hc
    decide
  · rw [natDigits, if_neg hn] at hc
    rw [List.mem_map] at hc
    obtain ⟨d, hd, hdc⟩ := hc
    rw [List.mem_reverse] at hd
    rw [← hdc]
    exact isDigitChar_digitChar (natDigitsAux_lt_ten d hd)

theorem natDigits_no_slash_colon (n : Nat) : ∀ c ∈ natDigits n, c ≠ '/' ∧ c ≠ ':' := by
  intro c hc
  have hd := (List.all_eq_true.mp (natDigits_all_digits n)) c hc
  constructor
  · intro h
    subst h
    exact absurd hd (by decide)
  · intro h
    subst h
    exact absurd hd (by decide)


theorem lowerStr_eq_nil_iff {l : Str} : lowerStr l = [] ↔ l = [] := by
  simp [lowerStr]

theorem lowerStr_all_digits (l : Str) :
    (lowerStr l).all isDigitChar = l.all isDigitChar := by
  induction l with
  | nil => rfl
  | cons c t ih =>
    rw [lowerStr, List.map_cons, List.all_cons, List.all_cons, isDigitChar_lowerChar]
    rw [show List.map lowerChar t = lowerStr t from rfl, ih]

theorem lowerStr_fixes_digits {l : Str} (h : l.all isDigitChar = true) :
    lowerStr l = l := by
  induction l with
  | nil => rfl
  | cons c t ih =>
    rw [List.all_cons, Bool.and_eq_true] at h
    rw [lowerStr, List.map_cons, lowerChar_fixes_digit h.1]
    rw [show List.map lowerChar t = lowerStr t from rfl, ih h.2]

theorem parsed_lower_record (sc hostSrc pathSrc : Str) (port : Option Nat) :
    ({ scheme := lowerStr (lowerStr sc), host := lowerStr (lowerStr hostSrc), port := port,
       path := if lowerStr pathSrc = [] then ['/'] else lowerStr pathSrc } : ParsedUrl) =
    { scheme := lowerStr sc, host := lowerStr hostSrc, port := port,
      path := lowerStr (if pathSrc = [] then ['/'] else pathSrc) } := by
  rw [lowerStr_idem, lowerStr_idem]
  congr 1
  by_cases hp : pathSrc = []
  · rw [if_pos hp, if_pos (by rw [hp]; rfl : lowerStr pathSrc = [])]
    subst hp
    decide
  · rw [if_neg hp, if_neg (fun hh => hp (lowerStr_eq_nil_iff.mp hh))]

theorem parsePortPart_lower (pp : Str) : parsePortPart (lowerStr pp) = parsePortPart pp := by
  cases pp with
  | nil => rfl
  | cons pc ds =>
    rw [show lowerStr (pc :: ds) = lowerChar pc :: lowerStr ds from rfl]
    rw [parsePortPart, parsePortPart]
    rw [lowerStr_all_digits]
    by_cases hds : ds = []
    · rw [if_pos hds, if_pos (by rw [hds]; rfl)]
    · rw [if_neg hds, if_neg (fun hh => hds (lowerStr_eq_nil_iff.mp hh))]
      by_cases hall : ds.all isDigitChar = true
      · rw [if_pos hall, if_pos hall, lowerStr_fixes_digits hall]
      · rw [if_neg hall, if_neg hall]

theorem parseURL_lower (s : Str) :
    parseURL (lowerStr s) = (parseURL s).map (fun p => { p with path := lowerStr p.path }) := by
  rw [parseURL, parseURL, splitScheme_lower]
  cases h : splitScheme s with
  | none => rfl
  | some p =>
    obtain ⟨sc, r⟩ := p
    simp only [Option.map_some']
    by_cases hsc : sc = []
    · subst hsc
      simp [lowerStr]
    · have hsc' : ¬(lowerStr sc = []) := fun hh => hsc (lowerStr_eq_nil_iff.mp hh)
      rw [if_neg hsc, if_neg hsc']
      have hauth : (lowerStr r).takeWhile (fun c => decide (c ≠ '/')) =
          lowerStr (r.takeWhile (fun c => decide (c ≠ '/'))) :=
        takeWhile_map_comm pred_ne_slash_lowerChar r
      have hpath : (lowerStr r).dropWhile (fun c => decide (c ≠ '/')) =
          lowerStr (r.dropWhile (fun c => decide (c ≠ '/'))) :=
        dropWhile_map_comm pred_ne_slash_lowerChar r
      rw [hauth, hpath]
      have hhost : (lowerStr (r.takeWhile (fun c => decide (c ≠ '/')))).takeWhile
          (fun c => decide (c ≠ ':')) =
          lowerStr ((r.takeWhile (fun c => decide (c ≠ '/'))).takeWhile
            (fun c => decide (c ≠ ':'))) :=
        takeWhile_map_comm pred_ne_colon_lowerChar _
      have hportPart : (lowerStr (r.takeWhile (fun c => decide (c ≠ '/')))).dropWhile
          (fun c => decide (c ≠ ':')) =
          lowerStr ((r.takeWhile (fun c => decide (c ≠ '/'))).dropWhile
            (fun c => decide (c ≠ ':'))) :=
        dropWhile_map_comm pred_ne_colon_lowerChar _
      rw [hhost, hportPart, parsePortPart_lower]
      by_cases hhn : (r.takeWhile (fun c => decide (c ≠ '/'))).takeWhile
          (fun c => decide (c ≠ ':')) = []
      · rw [if_pos hhn, if_pos (by rw [hhn]; rfl)]
        rfl
      · rw [if_neg hhn, if_neg (fun hh => hhn (lowerStr_eq_nil_iff.mp hh))]
        cases h2 : parsePortPart ((r.takeWhile (fun c => decide (c ≠ '/'))).dropWhile
            (fun c => decide (c ≠ ':'))) with
        | none => rfl
        | some port => exact congrArg some (parsed_lower_record sc _ _ port)


theorem parseURL_append_slash_none {X : Str} (h : parseURL (X ++ ['/']) = none) :
    parseURL X = none := by
  cases hs : splitScheme X with
  | none =>
    rw [parseURL, hs]
  | some p =>
    obtain ⟨xc, xr⟩ := p
    obtain ⟨hX, hxcn⟩ := splitScheme_eq_some hs
    have hsplit : splitScheme (X ++ ['/']) = some (xc, xr ++ ['/']) := by
      rw [hX, List.append_assoc]
      exact splitScheme_none_append _ hxcn
    rw [parseURL, hs]
    rw [parseURL, hsplit] at h
    simp only [] at h ⊢
    by_cases hxc : xc = []
    · rw [if_pos hxc]
    · rw [if_neg hxc] at h ⊢
      have hauth : (xr ++ ['/']).takeWhile (fun c => decide (c ≠ '/')) =
          xr.takeWhile (fun c => decide (c ≠ '/')) :=
        takeWhile_append_singleton xr (by decide)
      rw [hauth] at h
      by_cases hhn : (xr.takeWhile (fun c => decide (c ≠ '/'))).takeWhile
          (fun c => decide (c ≠ ':')) = []
      · rw [if_pos hhn]
      · rw [if_neg hhn] at h ⊢
        cases hp2 : parsePortPart ((xr.takeWhile (fun c => decide (c ≠ '/'))).dropWhile
            (fun c => decide (c ≠ ':'))) with
        | none => rfl
        | some port =>
          rw [hp2] at h
          simp at h

theorem parseURL_dropTrailingSlash_none {s : Str} (h : parseURL s = none) :
    parseURL (dropTrailingSlash s) = none := by
  rw [dropTrailingSlash]
  by_cases he : s.getLast? = some '/'
  · rw [if_pos he]
    have hne : s ≠ [] := by
      intro hh
      rw [hh] at he
      simp at he
    have hsplit : s.dropLast ++ [s.getLast hne] = s := List.dropLast_append_getLast hne
    have hlast : s.getLast hne = '/' := by
      have hgl := List.getLast?_eq_getLast s hne
      rw [hgl] at he
      exact Option.some_inj.mp he
    apply parseURL_append_slash_none
    rw [show s.dropLast ++ ['/'] = s from by
      rw [← hlast]
      exact hsplit]
    exact h
  · rw [if_neg he]
    exact h

theorem lowerStr_dropTrailingSlash_comm (w : Str) :
    lowerStr (dropTrailingSlash w) = dropTrailingSlash (lowerStr w) := by
  rw [dropTrailingSlash, dropTrailingSlash]
  have hlast : (lowerStr w).getLast? = w.getLast?.map lowerChar := by
    simp [lowerStr, List.getLast?_map]
  by_cases he : w.getLast? = some '/'
  · have hle : (lowerStr w).getLast? = some '/' := by
      rw [hlast, he]
      simp
      decide
    rw [if_pos he, if_pos hle]
    simp [lowerStr, List.map_dropLast]
  · have hle : ¬((lowerStr w).getLast? = some '/') := by
      rw [hlast]
      intro hh
      cases hg : w.getLast? with
      | none =>
        rw [hg] at hh
        simp at hh
      | some c =>
        rw [hg] at hh
        simp only [Option.map_some', Option.some_inj] at hh
        exact he (by rw [hg, lowerChar_eq_slash_iff.mp hh])
    rw [if_neg he, if_neg hle]

theorem normalize_fixed_of_unparsable {u : Str} (hp : parseURL u = none)
    (hns : (dropTrailingSlash (lowerStr u)).getLast? ≠ some '/') :
    normalizeRelayUrl (dropTrailingSlash (lowerStr u)) = dropTrailingSlash (lowerStr u) := by
  have h1 : parseURL (lowerStr u) = none := by
    rw [parseURL_lower, hp]
    rfl
  have h2 : parseURL (dropTrailingSlash (lowerStr u)) = none :=
    parseURL_dropTrailingSlash_none h1
  rw [normalizeRelayUrl, h2]
  have hlv : lowerStr (dropTrailingSlash (lowerStr u)) = dropTrailingSlash (lowerStr u) := by
    rw [lowerStr_dropTrailingSlash_comm, lowerStr_idem]
  rw [hlv, dropTrailingSlash, if_neg hns]

theorem getLast?_no_slash {l : Str} (h : ∀ c ∈ l, c ≠ '/') : l.getLast? ≠ some '/' := by
  intro hh
  exact h '/' (List.mem_of_mem_getLast? hh) rfl

theorem dropTrailingSlash_append {a b : Str} (hb : b ≠ []) :
    dropTrailingSlash (a ++ b) = a ++ dropTrailingSlash b := by
  rw [dropTrailingSlash, dropTrailingSlash, List.getLast?_append_of_ne_nil a hb]
  by_cases h : b.getLast? = some '/'
  · rw [if_pos h, if_pos h, List.dropLast_append_of_ne_nil a hb]
  · rw [if_neg h, if_neg h]

theorem serialize_split (S X : Str) :
    S ++ ':' :: '/' :: '/' :: X = (S ++ [':', '/', '/']) ++ X := by
  simp

theorem serialize_getLast (S X : Str) (hX : X ≠ []) :
    (S ++ ':' :: '/' :: '/' :: X).getLast? = X.getLast? := by
  rw [serialize_split, List.getLast?_append_of_ne_nil _ hX]

theorem serialize_dropTrailing (S X : Str) (hX : X ≠ []) :
    dropTrailingSlash (S ++ ':' :: '/' :: '/' :: X) =
      S ++ ':' :: '/' :: '/' :: dropTrailingSlash X := by
  rw [serialize_split, dropTrailingSlash_append hX]
  simp

theorem hostPort_ne_nil {host : Str} (port : Option Nat) (hh : host ≠ []) :
    host ++ portStr port ≠ [] := by
  intro hc
  exact hh (List.append_eq_nil.mp hc).1

theorem hostPort_getLast_ne_slash {host : Str} (port : Option Nat)
    (hhost : ∀ c ∈ host, c ≠ '/') :
    (host ++ portStr port).getLast? ≠ some '/' ∨ host ++ portStr port = [] := by
  cases port with
  | none =>
    rw [portStr, List.append_nil]
    cases host with
    | nil => exact Or.inr rfl
    | cons c t => exact Or.inl (getLast?_no_slash hhost)
  | some n =>
    refine Or.inl ?_
    rw [portStr, show (':' :: natDigits n) = [':'] ++ natDigits n from rfl,
        ← List.append_assoc, List.getLast?_append_of_ne_nil _ (natDigits_ne_nil n)]
    exact getLast?_no_slash (fun c hc => (natDigits_no_slash_colon n c hc).1)

theorem parsePortPart_le {x : Str} {n : Nat} (h : parsePortPart x = some (some n)) :
    n ≤ 65535 := by
  cases x with
  | nil => exact absurd h (by simp [parsePortPart])
  | cons c ds =>
    rw [parsePortPart] at h
    by_cases h1 : ds = []
    · rw [if_pos h1] at h
      exact absurd h (by simp)
    · rw [if_neg h1] at h
      by_cases h2 : ds.all isDigitChar = true
      · rw [if_pos h2] at h
        by_cases h3 : digitsVal ds ≤ 65535
        · rw [if_pos h3] at h
          simp only [Option.some_inj] at h
          rw [← h]
          exact h3
        · rw [if_neg h3] at h
          exact absurd h (by simp)
      · rw [if_neg h2] at h
        exact absurd h (by simp)

theorem head_dropWhile_false {p : Char → Bool} (l : Str) (c : Char)
    (h : (l.dropWhile p).head? = some c) : p c = false := by
  induction l with
  | nil => exact absurd h (by simp [List.dropWhile])
  | cons a t ih =>
    rw [List.dropWhile_cons] at h
    by_cases ha : p a = true
    · rw [if_pos ha] at h
      exact ih h
    · rw [if_neg ha] at h
      simp only [List.head?_cons, Option.some_inj] at h
      subst h
      exact Bool.eq_false_iff.mpr ha

theorem parseURL_serialized (scheme host path : Str) (port : Option Nat)
    (hsc : scheme ≠ []) (hscn : splitScheme scheme = none)
    (hh : host ≠ []) (hhost : ∀ c ∈ host, c ≠ '/' ∧ c ≠ ':')
    (hport : ∀ n, port = some n → n ≤ 65535)
    (hpath : path = [] ∨ path.head? = some '/') :
    parseURL (scheme ++ ':' :: '/' :: '/' :: (host ++ portStr port ++ path)) =
      some { scheme := lowerStr scheme, host := lowerStr host, port := port,
             path := if path = [] then ['/'] else path } := by
  have hslash : ∀ c ∈ host, (fun c => decide (c ≠ '/')) c = true := by
    intro c hc
    simp [(hhost c hc).1]
  have hcolon : ∀ c ∈ host, (fun c => decide (c ≠ ':')) c = true := by
    intro c hc
    simp [(hhost c hc).2]
  have hpns : ∀ c ∈ portStr port, (fun c => decide (c ≠ '/')) c = true := by
    intro c hc
    cases port with
    | none => exact absurd hc (by simp [portStr])
    | some n =>
      rw [portStr] at hc
      rcases List.mem_cons.mp hc with h | h
      · subst h
        decide
      · simp [(natDigits_no_slash_colon n c h).1]
  have htk : path.takeWhile (fun c => decide (c ≠ '/')) = [] := by
    rcases hpath with h | h
    · rw [h]
      rfl
    · cases path with
      | nil => rfl
      | cons c t =>
        simp only [List.head?_cons, Option.some_inj] at h
        subst h
        rw [List.takeWhile_cons]
        simp
  have hdp : path.dropWhile (fun c => decide (c ≠ '/')) = path := by
    rcases hpath with h | h
    · rw [h]
      rfl
    · cases path with
      | nil => rfl
      | cons c t =>
        simp only [List.head?_cons, Option.some_inj] at h
        subst h
        rw [List.dropWhile_cons]
        simp
  have htkp : (portStr port).takeWhile (fun c => decide (c ≠ ':')) = [] := by
    cases port with
    | none => rfl
    | some n =>
      rw [portStr, List.takeWhile_cons]
      simp
  have hdpp : (portStr port).dropWhile (fun c => decide (c ≠ ':')) = portStr port := by
    cases port with
    | none => rfl
    | some n =>
      rw [portStr, List.dropWhile_cons]
      simp
  have hauth : (host ++ portStr port ++ path).takeWhile (fun c => decide (c ≠ '/')) =
      host ++ portStr port := by
    rw [List.append_assoc, takeWhile_append_all hslash, takeWhile_append_all hpns, htk,
        List.append_nil]
  have hpathv : (host ++ portStr port ++ path).dropWhile (fun c => decide (c ≠ '/')) = path := by
    rw [List.append_assoc, dropWhile_append_all hslash, dropWhile_append_all hpns, hdp]
  have hhostv : (host ++ portStr port).takeWhile (fun c => decide (c ≠ ':')) = host := by
    rw [takeWhile_append_all hcolon, htkp, List.append_nil]
  have hportv : (host ++ portStr port).dropWhile (fun c => decide (c ≠ ':')) = portStr port := by
    rw [dropWhile_append_all hcolon, hdpp]
  have hpp : parsePortPart (portStr port) = some port := by
    cases port with
    | none => rfl
    | some n =>
      rw [portStr, parsePortPart, if_neg (natDigits_ne_nil n),
          if_pos (natDigits_all_digits n), digitsVal_natDigits, if_pos (hport n rfl)]
  rw [parseURL, splitScheme_none_append _ hscn]
  simp only []
  rw [if_neg hsc, hauth, hpathv, hhostv, hportv, if_neg hh, hpp]

theorem parseURL_inv {u : Str} {p : ParsedUrl} (h : parseURL u = some p) :
    p.scheme ≠ [] ∧ splitScheme p.scheme = none ∧ lowerStr p.scheme = p.scheme ∧
    p.host ≠ [] ∧ (∀ c ∈ p.host, c ≠ '/' ∧ c ≠ ':') ∧ lowerStr p.host = p.host ∧
    (∀ n, p.port = some n → n ≤ 65535) ∧ p.path.head? = some '/' := by
  rw [parseURL] at h
  cases hs : splitScheme u with
  | none =>
    rw [hs] at h
    exact absurd h (by simp)
  | some pr =>
    obtain ⟨sc, r⟩ := pr
    rw [hs] at h
    simp only [] at h
    by_cases hsc : sc = []
    · rw [if_pos hsc] at h
      exact absurd h (by simp)
    · rw [if_neg hsc] at h
      by_cases hhn : ((r.takeWhile (fun c => decide (c ≠ '/'))).takeWhile
          (fun c => decide (c ≠ ':'))) = []
      · rw [if_pos hhn] at h
        exact absurd h (by simp)
      · rw [if_neg hhn] at h
        cases hpp : parsePortPart ((r.takeWhile (fun c => decide (c ≠ '/'))).dropWhile
            (fun c => decide (c ≠ ':'))) with
        | none =>
          rw [hpp] at h
          exact absurd h (by simp)
        | some port =>
          rw [hpp] at h
          simp only [Option.some_inj] at h
          subst h
          refine ⟨?_, ?_, ?_, ?_, ?_, ?_, ?_, ?_⟩
          · exact fun hh => hsc (lowerStr_eq_nil_iff.mp hh)
          · show splitScheme (lowerStr sc) = none
            rw [splitScheme_lower, (splitScheme_eq_some hs).2]
            rfl
          · exact lowerStr_idem sc
          · exact fun hh => hhn (lowerStr_eq_nil_iff.mp hh)
          · intro c hc
            obtain ⟨c0, hc0, rfl⟩ := List.mem_map.mp hc
            have h1 := List.mem_takeWhile_imp hc0
            have hc1 : c0 ∈ r.takeWhile (fun c => decide (c ≠ '/')) :=
              (List.takeWhile_sublist _).subset hc0
            have h2 := List.mem_takeWhile_imp hc1
            simp only [decide_eq_true_eq] at h1 h2
            constructor
            · intro hh
              exact h2 (lowerChar_eq_slash_iff.mp hh)
            · intro hh
              exact h1 (lowerChar_eq_colon_iff.mp hh)
          · exact lowerStr_idem _
          · intro n hn
            have hn' : port = some n := hn
            rw [hn'] at hpp
            exact parsePortPart_le hpp
          · show (if r.dropWhile (fun c => decide (c ≠ '/')) = [] then ['/']
              else r.dropWhile (fun c => decide (c ≠ '/'))).head? = some '/'
            by_cases hpe : r.dropWhile (fun c => decide (c ≠ '/')) = []
            · rw [if_pos hpe]
              rfl
            · rw [if_neg hpe]
              cases hl : r.dropWhile (fun c => decide (c ≠ '/')) with
              | nil => exact absurd hl hpe
              | cons c t =>
                have hhd : (r.dropWhile (fun c => decide (c ≠ '/'))).head? = some c := by
                  rw [hl]
                  rfl
                have hcs := head_dropWhile_false r c hhd
                simp only [decide_eq_false_iff_not, not_not] at hcs
                rw [List.head?_cons, hcs]

theorem normRecord_spec (p : ParsedUrl) :
    (normRecord p).scheme = p.scheme ∧ (normRecord p).host = lowerStr p.host ∧
    ((normRecord p).port = none ∨ (normRecord p).port = p.port) ∧
    ¬(((normRecord p).scheme = "wss".toList ∧ (normRecord p).port = some 443) ∨
      ((normRecord p).scheme = "ws".toList ∧ (normRecord p).port = some 80)) ∧
    ((normRecord p).path = [] ∨ ((normRecord p).path = p.path ∧ p.path ≠ ['/'])) := by
  rw [normRecord]
  simp only []
  by_cases h1 : (p.scheme = "wss".toList ∧ p.port = some 443) ∨
      (p.scheme = "ws".toList ∧ p.port = some 80)
  · rw [if_pos h1]
    by_cases h2 : p.path = ['/']
    · rw [if_pos h2]
      refine ⟨rfl, rfl, Or.inl rfl, ?_, Or.inl rfl⟩
      rintro (⟨_, hp⟩ | ⟨_, hp⟩) <;> exact absurd hp (by simp)
    · rw [if_neg h2]
      refine ⟨rfl, rfl, Or.inl rfl, ?_, Or.inr ⟨rfl, h2⟩⟩
      rintro (⟨_, hp⟩ | ⟨_, hp⟩) <;> exact absurd hp (by simp)
  · rw [if_neg h1]
    by_cases h2 : p.path = ['/']
    · rw [if_pos h2]
      exact ⟨rfl, rfl, Or.inr rfl, h1, Or.inl rfl⟩
    · rw [if_neg h2]
      exact ⟨rfl, rfl, Or.inr rfl, h1, Or.inr ⟨rfl, h2⟩⟩

theorem normalize_fixed_of_serialized (scheme host path : Str) (port : Option Nat)
    (hsc : scheme ≠ []) (hscn : splitScheme scheme = none)
    (hsclow : lowerStr scheme = scheme)
    (hh : host ≠ []) (hhost : ∀ c ∈ host, c ≠ '/' ∧ c ≠ ':')
    (hhlow : lowerStr host = host)
    (hport : ∀ n, port = some n → n ≤ 65535)
    (hdef : ¬((scheme = "wss".toList ∧ port = some 443) ∨
      (scheme = "ws".toList ∧ port = some 80)))
    (hpath : path = [] ∨ (path.head? = some '/' ∧ path.getLast? ≠ some '/')) :
    normalizeRelayUrl (scheme ++ ':' :: '/' :: '/' :: (host ++ portStr port ++ path)) =
      scheme ++ ':' :: '/' :: '/' :: (host ++ portStr port ++ path) := by
  have hpath' : path = [] ∨ path.head? = some '/' := by
    rcases hpath with h | ⟨h, _⟩
    · exact Or.inl h
    · exact Or.inr h
  have hne : host ++ portStr port ≠ [] := hostPort_ne_nil port hh
  have hl0 : (host ++ portStr port).getLast? ≠ some '/' := by
    rcases hostPort_getLast_ne_slash port (fun c hc => (hhost c hc).1) with h | h
    · exact h
    · exact absurd h hne
  rw [normalizeRelayUrl,
      parseURL_serialized scheme host path port hsc hscn hh hhost hport hpath']
  simp only []
  rw [hsclow, hhlow]
  rcases hpath with hpe | ⟨hph, hpl⟩
  · subst hpe
    rw [show (if ([] : Str) = [] then ['/'] else ([] : Str)) = ['/'] from rfl]
    rw [normRecord]
    simp only []
    rw [hhlow, if_neg hdef, if_pos rfl]
    rw [serializeURL]
    simp only []
    rw [List.append_nil]
    rw [dropTrailingSlash, if_neg (by rw [serialize_getLast _ _ hne]; exact hl0)]
  · have hpne : path ≠ [] := by
      intro hh2
      rw [hh2] at hph
      exact absurd hph (by simp)
    have hpsl : path ≠ ['/'] := by
      intro hh2
      rw [hh2] at hpl
      exact hpl rfl
    rw [if_neg hpne]
    rw [normRecord]
    simp only []
    rw [hhlow, if_neg hdef, if_neg hpsl]
    rw [serializeURL]
    simp only []
    have hne2 : host ++ portStr port ++ path ≠ [] := by
      intro hh2
      exact hpne (List.append_eq_nil.mp hh2).2
    have hl2 : (host ++ portStr port ++ path).getLast? ≠ some '/' := by
      rw [List.getLast?_append_of_ne_nil _ hpne]
      exact hpl
    rw [dropTrailingSlash, if_neg (by rw [serialize_getLast _ _ hne2]; exact hl2)]

theorem normalize_fixed_of_parsed {u : Str} {p : ParsedUrl} (hp : parseURL u = some p)
    (hns : (normalizeRelayUrl u).getLast? ≠ some '/') :
    normalizeRelayUrl (normalizeRelayUrl u) = normalizeRelayUrl u := by
  obtain ⟨hsc, hscn, hsclow, hh, hhost, hhlow, hport, hph⟩ := parseURL_inv hp
  obtain ⟨qsc, qhost, qport, qdef, qpath⟩ := normRecord_spec p
  rw [qsc] at qdef
  rw [hhlow] at qhost
  have hv : normalizeRelayUrl u =
      dropTrailingSlash (p.scheme ++ ':' :: '/' :: '/' ::
        (p.host ++ portStr (normRecord p).port ++ (normRecord p).path)) := by
    rw [normalizeRelayUrl, hp]
    simp only []
    rw [serializeURL, qsc, qhost]
  have hqport : ∀ n, (normRecord p).port = some n → n ≤ 65535 := by
    intro n hn
    rcases qport with h | h
    · rw [h] at hn
      exact absurd hn (by simp)
    · rw [h] at hn
      exact hport n hn
  have hXne : p.host ++ portStr (normRecord p).port ≠ [] := hostPort_ne_nil _ hh
  have hXlast : (p.host ++ portStr (normRecord p).port).getLast? ≠ some '/' := by
    rcases hostPort_getLast_ne_slash (normRecord p).port (fun c hc => (hhost c hc).1) with h | h
    · exact h
    · exact absurd h hXne
  rcases qpath with hqp | ⟨hqp, hpsl⟩
  · rw [hqp, List.append_nil, serialize_dropTrailing _ _ hXne,
        dropTrailingSlash, if_neg hXlast] at hv
    rw [hv]
    have hfix := normalize_fixed_of_serialized p.scheme p.host [] (normRecord p).port
      hsc hscn hsclow hh hhost hhlow hqport qdef (Or.inl rfl)
    rw [List.append_nil] at hfix
    exact hfix
  · have hppne : p.path ≠ [] := by
      intro h2
      rw [h2] at hph
      exact absurd hph (by simp)
    have hXTne : p.host ++ portStr (normRecord p).port ++ p.path ≠ [] := by
      intro h2
      exact hppne (List.append_eq_nil.mp h2).2
    rw [hqp, serialize_dropTrailing _ _ hXTne, dropTrailingSlash_append hppne] at hv
    obtain ⟨t, ht⟩ : ∃ t, p.path = '/' :: t := by
      cases hl : p.path with
      | nil => exact absurd hl hppne
      | cons c t =>
        rw [hl, List.head?_cons] at hph
        simp only [Option.some_inj] at hph
        exact ⟨t, by rw [hph]⟩
    have htne : t ≠ [] := by
      intro h2
      rw [h2] at ht
      exact hpsl ht
    have ht2 : ∃ t2, dropTrailingSlash p.path = '/' :: t2 := by
      rw [ht, dropTrailingSlash]
      by_cases h2 : ('/' :: t).getLast? = some '/'
      · rw [if_pos h2, List.dropLast_cons_of_ne_nil htne]
        exact ⟨t.dropLast, rfl⟩
      · rw [if_neg h2]
        exact ⟨t, rfl⟩
    obtain ⟨t2, ht2⟩ := ht2
    have hTne : dropTrailingSlash p.path ≠ [] := by
      rw [ht2]
      simp
    have hThead : (dropTrailingSlash p.path).head? = some '/' := by
      rw [ht2]
      rfl
    have hXT2ne : p.host ++ portStr (normRecord p).port ++ dropTrailingSlash p.path ≠ [] := by
      intro h2
      exact hTne (List.append_eq_nil.mp h2).2
    rw [hv] at hns
    rw [serialize_getLast _ _ hXT2ne, List.getLast?_append_of_ne_nil _ hTne] at hns
    rw [hv]
    exact normalize_fixed_of_serialized p.scheme p.host (dropTrailingSlash p.path)
      (normRecord p).port hsc hscn hsclow hh hhost hhlow hqport qdef (Or.inr ⟨hThead, hns⟩)

/-- C3 (corrected statement): `normalizeRelayUrl` is idempotent at every
input whose normalization does not end in a slash.  The original claim —
idempotence at every string input — is false because the fallback branch
and the serializer strip only ONE trailing slash (see
`normalizeRelayUrl_not_idempotent`); when the first pass still ends in a
slash a second pass strips one more.  Whenever the first pass produces a
string not ending in `/`, a second application is the identity. -/
theorem normalizeRelayUrl_idempotent_unless_trailing_slash (u : Str)
    (h : (normalizeRelayUrl u).getLast? ≠ some '/') :
    normalizeRelayUrl (normalizeRelayUrl u) = normalizeRelayUrl u := by
  cases hp : parseURL u with
  | none =>
    have hv : normalizeRelayUrl u = dropTrailingSlash (lowerStr u) := by
      rw [normalizeRelayUrl, hp]
    rw [hv] at h ⊢
    exact normalize_fixed_of_unparsable hp h
  | some p => exact normalize_fixed_of_parsed hp h

/-- C3 counterexample: `normalizeRelayUrl` is NOT idempotent on all
strings.  The unparsable input `//` lower-cases to itself and loses one
trailing slash per pass (`//` ↦ `/` ↦ ``), and the parsable input
`wss://a.com//` keeps a slash after the first pass
(`wss://a.com//` ↦ `wss://a.com/` ↦ `wss://a.com`), so a second pass
changes the result again. -/
theorem normalizeRelayUrl_not_idempotent :
    normalizeRelayUrl (normalizeRelayUrl "//".toList) ≠ normalizeRelayUrl "//".toList ∧
    normalizeRelayUrl (normalizeRelayUrl "wss://a.com//".toList) ≠
      normalizeRelayUrl "wss://a.com//".toList := by
  constructor
  · decide
  · decide

theorem normalizeRelayUrl_idempotent_unless_trailing_slash_witness :
    (normalizeRelayUrl "wss://Relay.Example.com:443/".toList).getLast? ≠ some '/' ∧
    normalizeRelayUrl (normalizeRelayUrl "wss://Relay.Example.com:443/".toList) =
      normalizeRelayUrl "wss://Relay.Example.com:443/".toList :=
  ⟨by decide,
   normalizeRelayUrl_idempotent_unless_trailing_slash "wss://Relay.Example.com:443/".toList
     (by decide)⟩

theorem parsedUrl_eta (q : ParsedUrl) (s h : Str) (po : Option Nat) (pa : Str)
    (h1 : q.scheme = s) (h2 : q.host = h) (h3 : q.port = po) (h4 : q.path = pa) :
    q = { scheme := s, host := h, port := po, path := pa } := by
  obtain ⟨a, b, c, d⟩ := q
  subst h1
  subst h2
  subst h3
  subst h4
  rfl

theorem lowerStr_no_slash_colon {host : Str} (hch : ∀ c ∈ host, c ≠ '/' ∧ c ≠ ':') :
    ∀ c ∈ lowerStr host, c ≠ '/' ∧ c ≠ ':' := by
  intro c hc
  obtain ⟨c0, hc0, rfl⟩ := List.mem_map.mp hc
  constructor
  · intro hh
    exact (hch c0 hc0).1 (lowerChar_eq_slash_iff.mp hh)
  · intro hh
    exact (hch c0 hc0).2 (lowerChar_eq_colon_iff.mp hh)

theorem normRecord_default (sch hostl : Str) (port : Option Nat)
    (hport : port = none ∨ (sch = "wss".toList ∧ port = some 443) ∨
      (sch = "ws".toList ∧ port = some 80)) :
    normRecord { scheme := sch, host := hostl, port := port, path := ['/'] } =
      { scheme := sch, host := lowerStr hostl, port := none, path := [] } := by
  obtain ⟨qsc, qhost, qport, qdef, qpath⟩ :=
    normRecord_spec { scheme := sch, host := hostl, port := port, path := ['/'] }
  refine parsedUrl_eta _ sch (lowerStr hostl) none [] qsc qhost ?_ ?_
  · rcases qport with h | h
    · exact h
    · rcases hport with h2 | ⟨h2a, h2b⟩ | ⟨h2a, h2b⟩
      · rw [h]
        exact h2
      · exact absurd (Or.inl ⟨by rw [qsc]; exact h2a, by rw [h]; exact h2b⟩) qdef
      · exact absurd (Or.inr ⟨by rw [qsc]; exact h2a, by rw [h]; exact h2b⟩) qdef
  · rcases qpath with h | ⟨_h1, h2⟩
    · exact h
    · exact absurd rfl h2

theorem normalize_serialized_default (sch host path : Str) (port : Option Nat)
    (hsch : sch = "wss".toList ∨ sch = "ws".toList)
    (hne : host ≠ []) (hch : ∀ c ∈ host, c ≠ '/' ∧ c ≠ ':')
    (hport : port = none ∨ (sch = "wss".toList ∧ port = some 443) ∨
      (sch = "ws".toList ∧ port = some 80))
    (hpath : path = [] ∨ path = ['/']) :
    normalizeRelayUrl (sch ++ ':' :: '/' :: '/' :: (host ++ portStr port ++ path)) =
      sch ++ ':' :: '/' :: '/' :: lowerStr host := by
  have hsc : sch ≠ [] := by
    rcases hsch with h | h <;> rw [h] <;> decide
  have hscn : splitScheme sch = none := by
    rcases hsch with h | h <;> rw [h] <;> decide
  have hsl : lowerStr sch = sch := by
    rcases hsch with h | h <;> rw [h] <;> decide
  have hportb : ∀ n, port = some n → n ≤ 65535 := by
    intro n hn
    rcases hport with h | ⟨_, h⟩ | ⟨_, h⟩
    · rw [h] at hn
      exact absurd hn (by simp)
    · rw [h] at hn
      simp only [Option.some_inj] at hn
      omega
    · rw [h] at hn
      simp only [Option.some_inj] at hn
      omega
  have hpath' : path = [] ∨ path.head? = some '/' := by
    rcases hpath with h | h
    · exact Or.inl h
    · rw [h]
      exact Or.inr rfl
  have hpv : (if path = [] then ['/'] else path) = ['/'] := by
    rcases hpath with h | h
    · rw [if_pos h]
    · rw [h]
      decide
  rw [normalizeRelayUrl, parseURL_serialized sch host path port hsc hscn hne hch hportb hpath']
  simp only []
  rw [hsl, hpv]
  have hnr := normRecord_default sch (lowerStr host) port hport
  rw [hnr, lowerStr_idem, serializeURL]
  simp only []
  rw [show portStr none = [] from rfl, List.append_nil, List.append_nil]
  have hlne : lowerStr host ≠ [] := fun hx => hne (lowerStr_eq_nil_iff.mp hx)
  have hlast : (lowerStr host).getLast? ≠ some '/' :=
    getLast?_no_slash (fun c hc => (lowerStr_no_slash_colon hch c hc).1)
  rw [dropTrailingSlash, if_neg (by rw [serialize_getLast _ _ hlne]; exact hlast)]

theorem mkRelayUrl_eq (useWss wp ws : Bool) (host : Str) :
    mkRelayUrl useWss host wp ws =
      (if useWss then "wss".toList else "ws".toList) ++ ':' :: '/' :: '/' ::
        (host ++ portStr (if wp then (if useWss then some 443 else some 80) else none) ++
          (if ws then ['/'] else [])) := by
  have hP : (if wp then (if useWss then ":443".toList else ":80".toList) else ([] : Str)) =
      portStr (if wp then (if useWss then some 443 else some 80) else none) := by
    cases wp <;> cases useWss <;> decide
  have hT : (if ws then "/".toList else ([] : Str)) = (if ws then ['/'] else []) := by
    cases ws <;> rfl
  rw [mkRelayUrl, hP, hT, List.append_assoc, List.append_assoc, List.append_assoc]
  congr 1
  show ':' :: '/' :: '/' ::
      (host ++ (portStr (if wp then (if useWss then some 443 else some 80) else none) ++
        (if ws then ['/'] else []))) =
    ':' :: '/' :: '/' ::
      (host ++ portStr (if wp then (if useWss then some 443 else some 80) else none) ++
        (if ws then ['/'] else []))
  rw [← List.append_assoc]

theorem normalize_mkRelayUrl (useWss wp ws : Bool) (host : Str)
    (hne : host ≠ []) (hch : ∀ c ∈ host, c ≠ '/' ∧ c ≠ ':') :
    normalizeRelayUrl (mkRelayUrl useWss host wp ws) =
      (if useWss then "wss".toList else "ws".toList) ++ ':' :: '/' :: '/' :: lowerStr host := by
  rw [mkRelayUrl_eq]
  apply normalize_serialized_default
  · cases useWss
    · exact Or.inr rfl
    · exact Or.inl rfl
  · exact hne
  · exact hch
  · cases wp
    · exact Or.inl rfl
    · cases useWss
      · exact Or.inr (Or.inr ⟨rfl, rfl⟩)
      · exact Or.inr (Or.inl ⟨rfl, rfl⟩)
  · cases ws
    · exact Or.inl rfl
    · exact Or.inr rfl

/-- C8: `isSameRelay` (the spec's `sameEndpoint`) returns `true` for every
pair of valid relay URLs that differ only in the letter-case of the host,
the presence of a trailing slash, or an explicit scheme-default port (443
for `wss`, 80 for `ws`).  `mkRelayUrl` ranges over exactly those shapes:
a scheme choice shared by both URLs, per-URL host spelling, optional
explicit default port and optional trailing slash; hosts are non-empty,
free of `/` and `:`, and equal up to ASCII case. -/
theorem isSameRelay_same_endpoint (useWss wp1 wp2 ws1 ws2 : Bool) (host1 host2 : Str)
    (h1 : host1 ≠ []) (hc1 : ∀ c ∈ host1, c ≠ '/' ∧ c ≠ ':')
    (hc2 : ∀ c ∈ host2, c ≠ '/' ∧ c ≠ ':')
    (hh : lowerStr host1 = lowerStr host2) :
    isSameRelay (mkRelayUrl useWss host1 wp1 ws1) (mkRelayUrl useWss host2 wp2 ws2) = true := by
  have h2 : host2 ≠ [] := by
    intro hx
    rw [hx] at hh
    exact h1 (lowerStr_eq_nil_iff.mp hh)
  rw [isSameRelay, normalize_mkRelayUrl useWss wp1 ws1 host1 h1 hc1,
      normalize_mkRelayUrl useWss wp2 ws2 host2 h2 hc2, hh]
  simp

theorem isSameRelay_same_endpoint_witness :
    ("Relay.Example.com".toList ≠ ([] : Str) ∧
     lowerStr "Relay.Example.com".toList = lowerStr "relay.example.com".toList) ∧
    isSameRelay "wss://Relay.Example.com:443/".toList "wss://relay.example.com".toList = true := by
  constructor
  · exact ⟨by decide, by decide⟩
  · have h := isSameRelay_same_endpoint true true false true false
      "Relay.Example.com".toList "relay.example.com".toList (by decide) (by decide)
      (by decide) (by decide)
    rw [show mkRelayUrl true "Relay.Example.com".toList true true =
          "wss://Relay.Example.com:443/".toList from by decide,
        show mkRelayUrl true "relay.example.com".toList false false =
          "wss://relay.example.com".toList from by decide] at h
    exact h
